import Mathlib

/-!
Shallow embedding of `src/models/gru_word2vec.py`.

The file defines character-level word2vec modules:
`CharWord2Vec` (one-hot character encoder, `chartoken2tensor`, `lookup`),
`GRUWord2Vec` (GRU encoder, final-position selection), `PoolGRUWord2Vec`
(max-pooling over time) and `CNNWord2Vec` (1-D convolution plus
max-pooling over time).

Tensors are modelled as nested lists of rationals; a token is the list of
characters of its `.text`.  Python/torch runtime errors (failed `assert`,
`KeyError`, `max` of an empty sequence, invalid embedding index, invalid
`view`, `torch.cat` of an empty list, convolution kernel larger than the
input, `torch.max` over an empty dimension) are modelled with `Except`.

The GRU layer itself (`nn.GRU`) is framework code, not part of the
repository: it is modelled as an abstract per-position sequence encoder
(`SeqEncoder`) with the documented interface of `nn.GRU` — one output
vector per input position, of dimension `hidden_size` per direction, the
bidirectional output being the position-wise concatenation of the forward
pass over the sequence and the reversed backward pass over the reversed
sequence.  `nn.Conv1d` has no internal state and is modelled concretely.
-/

/-- A vector of scalars (one tensor row). -/
abbrev Vec := List ℚ

/-- A token is the list of characters of its `.text`. -/
abbrev Token := List Char

/-- A `B x W x E` tensor: batch of rows of embedding vectors. -/
abbrev T3 := List (List Vec)

/-- Runtime errors of the Python/torch code. -/
inductive Err where
  /-- `assert tokens.ndim == 2` fails. -/
  | ndim
  /-- `KeyError` from `self.char2id[char]`. -/
  | keyError
  /-- `ValueError` from `max(seq_lens)` on an empty list. -/
  | emptyMax
  /-- index out of range in an embedding lookup or tensor indexing. -/
  | index
  /-- `RuntimeError` from `.view` with a mismatched element count. -/
  | view
  /-- `RuntimeError` from `torch.cat` on an empty list. -/
  | cat
  /-- `RuntimeError`: convolution kernel larger than the input length. -/
  | conv
  /-- `RuntimeError` from `torch.max` over an empty dimension. -/
  | maxEmpty
  deriving DecidableEq, Repr

/-- Python `max` over a non-empty list of naturals (head seeds the fold). -/
def pyMax : List ℕ → ℕ
  | [] => 0
  | x :: xs => xs.foldl max x

/-- Python `max` over a non-empty list of rationals (head seeds the fold). -/
def pyMaxQ : List ℚ → ℚ
  | [] => 0
  | x :: xs => xs.foldl max x

/-- `tokens.shape[1]` of a 2-D batch: the length of the first row. -/
def width (tokens : List (List α)) : ℕ := (tokens.headD []).length

/-- Row `i` of a one-hot table of width `n`: the `i`-th standard basis
vector for `i \x7b  < \x7d n`, the all-zero vector for `i = n`. -/
def oneHot (n i : ℕ) : Vec :=
  (List.range n).map (fun j => if j = i then (1 : ℚ) else 0)

/-- The weight matrix of the frozen character encoder:
`nn.Embedding(num_chars+1, num_chars, padding_idx=num_chars)` whose first
`num_chars` rows are overwritten with the identity by
`torch.diag(torch.ones(num_chars), out=weight.data[:-1])`; the padding
row stays the zero vector. -/
def charEncoderWeight (n : ℕ) : List Vec :=
  (List.range (n + 1)).map (oneHot n)

/-- Row lookup in the character-encoder weight matrix. -/
def encRow (n i : ℕ) : Vec := (charEncoderWeight n).getD i []

/-- The `_char_encoder` module: its weight matrix together with the
`requires_grad` flag of the weights. -/
structure CharEncoderModule where
  weight : List Vec
  requiresGrad : Bool

/-- `CharWord2Vec.__init__` builds the one-hot encoder and freezes it:
`self._char_encoder.weight.requires_grad = False`. -/
def mkCharEncoder (n : ℕ) : CharEncoderModule :=
  { weight := charEncoderWeight n, requiresGrad := false }

/-- The data of `CharWord2Vec` that character encoding uses:
`self.char2id` (a dict, modelled as a partial map) and
`self.num_chars = len(self.char2id)`. -/
structure CharW2V where
  char2id : Char → Option ℕ
  numChars : ℕ

/-- `self.char2id[char]`: a missing key raises `KeyError`. -/
def charLookup (M : CharW2V) (ch : Char) : Except Err ℕ :=
  match M.char2id ch with
  | some i => .ok i
  | none => .error .keyError

/-- The body of `chartoken2tensor` on the character-id sequences
`charids` of the flattened batch: compute `seq_lens`, take
`max(seq_lens)` (a `ValueError` on an empty list, i.e. an empty
flattened batch), pad every id sequence with the padding id `num_chars`
up to `max(seq_lens)`, and run the padded ids through the one-hot
`_char_encoder` (an index error outside its `num_chars + 1` rows). -/
def chartokenCore (M : CharW2V) : List (List ℕ) →
    Except Err (List (List Vec) × List ℕ)
  | [] => .error .emptyMax
  | c0 :: crest =>
    let maxSeqLen := (crest.map List.length).foldl max c0.length
    let padded := (c0 :: crest).map
      (fun ca => ca ++ List.replicate (maxSeqLen - ca.length) M.numChars)
    if padded.all (fun row => row.all (fun i => i < M.numChars + 1)) then
      .ok (padded.map (fun row => row.map (encRow M.numChars)),
        (c0 :: crest).map List.length)
    else .error .index

/-- `CharWord2Vec.chartoken2tensor`: asserts the batch is 2-D
(`assert tokens.ndim == 2`, modelled as all rows having the width of the
first), looks every character id up (a missing key raises `KeyError`),
then pads and one-hot encodes via `chartokenCore`. -/
def chartoken2tensor (M : CharW2V) (tokens : List (List Token)) :
    Except Err (List (List Vec) × List ℕ) :=
  if tokens.all (fun row => row.length = width tokens) then do
    let charids ← tokens.flatten.mapM (fun tok => tok.mapM (charLookup M))
    chartokenCore M charids
  else .error .ndim

/-- The ids of a token's characters (`0` standing in for a missing key;
equal to the real ids whenever every character is a key of `char2id`). -/
def tokIds (M : CharW2V) (tok : Token) : List ℕ :=
  tok.map (fun ch => (M.char2id ch).getD 0)

/-- A token's id sequence padded with the padding id `num_chars` up to
length `L`. -/
def paddedIds (M : CharW2V) (L : ℕ) (tok : Token) : List ℕ :=
  tokIds M tok ++ List.replicate (L - tok.length) M.numChars

/-- The one-hot encoding of a token padded up to length `L`. -/
def tokOneHots (M : CharW2V) (L : ℕ) (tok : Token) : List Vec :=
  (paddedIds M L tok).map (encRow M.numChars)

/-- `max(seq_lens)` for a 2-D batch: the length of its longest token. -/
def batchMaxLen (tokens : List (List Token)) : ℕ :=
  pyMax (tokens.flatten.map List.length)

/-- Fuel-driven worker for `chunkList`. -/
def chunkGo (n : ℕ) : ℕ → List α → List (List α)
  | 0, _ => []
  | _ + 1, [] => []
  | fuel + 1, x :: xs =>
      (x :: List.take (n - 1) xs) :: chunkGo n fuel (List.drop (n - 1) xs)

/-- `[l[i:i+n] for i in range(0, len(l), n)]`: the slices of size `n`
(the last one possibly shorter) taken by the batching loop. -/
def chunkList (n : ℕ) (l : List α) : List (List α) :=
  chunkGo n l.length l

/-- The slice size `step = 10000` of the batching loops. -/
def step : ℕ := 10000

/-- Abstract interface of a one-directional recurrent sequence encoder
(`nn.GRU` with `bidirectional=False`): one output vector per input
position, each of dimension `outDim` (the hidden size). -/
structure SeqEncoder where
  outDim : ℕ
  run : List Vec → List Vec
  run_length : ∀ xs, (run xs).length = xs.length
  run_dim : ∀ xs, ∀ v ∈ run xs, v.length = outDim

/-- Output sequence of a bidirectional recurrent encoder: at each
position the forward output is concatenated with the output of the
backward pass over the reversed sequence, re-reversed to line up
positions. -/
def biRun (f b : SeqEncoder) (xs : List Vec) : List Vec :=
  List.zipWith (· ++ ·) (f.run xs) ((b.run xs.reverse).reverse)

/-- A bidirectional encoder built from two directional ones
(`nn.GRU` with `bidirectional=True`); its per-position output dimension
is the sum of the two hidden sizes. -/
def biEncoder (f b : SeqEncoder) : SeqEncoder where
  outDim := f.outDim + b.outDim
  run := biRun f b
  run_length := by
    intro xs
    simp [biRun, List.length_zipWith, f.run_length, b.run_length]
  run_dim := by
    intro xs v hv
    rcases List.mem_iff_getElem.mp hv with ⟨i, hi, hv2⟩
    simp only [biRun] at hv2 hi
    have hmin := hi
    rw [List.length_zipWith] at hmin
    have hiF : i < (f.run xs).length :=
      lt_of_lt_of_le hmin (min_le_left _ _)
    have hiB : i < ((b.run xs.reverse).reverse).length :=
      lt_of_lt_of_le hmin (min_le_right _ _)
    rw [List.getElem_zipWith] at hv2
    subst hv2
    have h1 := f.run_dim xs _ (List.getElem_mem hiF)
    have h2 : ((b.run xs.reverse).reverse)[i] ∈ b.run xs.reverse := by
      have := List.getElem_mem hiB
      rwa [List.mem_reverse] at this
    have h3 := b.run_dim xs.reverse _ h2
    rw [List.length_append, h1, h3]

/-- `GRUWord2Vec.__init__`: the module keeps `char2id`/`num_chars`,
`embedding_size`, the `bidirectional` flag and the GRU
`nn.GRU(num_chars, embedding_size // 2 if bidirectional else
embedding_size, 1, batch_first=True, bidirectional=bidirectional)`,
modelled by its one or two directional encoders with those hidden
sizes. -/
structure GRUWord2Vec where
  chars : CharW2V
  embeddingSize : ℕ
  bidirectional : Bool
  fwd : SeqEncoder
  bwd : SeqEncoder
  fwd_dim : fwd.outDim =
    if bidirectional then embeddingSize / 2 else embeddingSize
  bwd_dim : bidirectional = true → bwd.outDim = embeddingSize / 2

/-- The `self._encoder` GRU of a `GRUWord2Vec` as a sequence encoder. -/
def GRUWord2Vec.encoder (M : GRUWord2Vec) : SeqEncoder :=
  if M.bidirectional then biEncoder M.fwd M.bwd else M.fwd

/-- `outputs[:, l-1]` for a Python integer `l ≥ 0`: for `l = 0` the index
is `-1`, i.e. the last position; an index outside the time dimension is a
runtime error. -/
def selectTimePy (l : ℕ) (outputs : List (List Vec)) : Except Err (List Vec) :=
  if l = 0 then
    if outputs.all (fun s => decide (0 < s.length)) then
      .ok (outputs.map (fun s => s.getD (s.length - 1) []))
    else .error .index
  else
    if outputs.all (fun s => decide (l - 1 < s.length)) then
      .ok (outputs.map (fun s => s.getD (l - 1) []))
    else .error .index

/-- `for seq_len in seq_lens: new_outputs = outputs[:, seq_len-1]` —
each iteration rebinds `new_outputs` wholesale, so after the loop only
the last `seq_len` matters; with an empty `seq_lens` the initial
`J.zeros(...)` tensor survives. -/
def fillLoop (outputs : List (List Vec)) (acc : List Vec) :
    List ℕ → Except Err (List Vec)
  | [] => .ok acc
  | l :: ls => do
      let sel ← selectTimePy l outputs
      fillLoop outputs sel ls

/-- The time index Python's `outputs[:, l-1]` reads for `seq_len = l`
over sequences of length `L`: `l - 1`, i.e. the last position `L - 1`
when `l = 0`. -/
def pyIdx (l L : ℕ) : ℕ := if l = 0 then L - 1 else l - 1

/-- The last element of a list (`0` for the empty list): the value
`seq_len` holds after the `for seq_len in seq_lens` loop. -/
def pyLast : List ℕ → ℕ
  | [] => 0
  | [x] => x
  | _ :: x :: xs => pyLast (x :: xs)

/-- `.view(B, W, E)`: succeeds iff the element count matches, regrouping
the flattened scalars into `B` rows of `W` vectors of size `E`. -/
def view3 (B W E : ℕ) (vs : List Vec) : Except Err T3 :=
  if vs.flatten.length = B * W * E then
    .ok (chunkList W (chunkList E vs.flatten))
  else .error .view

/-- One iteration of the `GRUWord2Vec.lookup_tokens` batching loop on a
slice `token_slice`: one-hot encode, run the GRU, re-bind `new_outputs`
through the `seq_lens` loop, and `.view` the result to
`B x W x embedding_size`. -/
def gruChunk (M : GRUWord2Vec) (slice : List (List Token)) : Except Err T3 := do
  let p ← chartoken2tensor M.chars slice
  let outputs := p.1.map M.encoder.run
  let init := List.replicate outputs.length
    (List.replicate M.encoder.outDim (0 : ℚ))
  let sel ← fillLoop outputs init p.2
  view3 slice.length (width slice) M.embeddingSize sel

/-- The embedding `GRUWord2Vec.lookup_tokens` actually assigns to a
token of a slice whose padded length is `L` and whose last `seq_len` is
`lst`: the GRU output over the token's padded one-hot sequence, read at
the time index determined by `lst` (not by the token's own length). -/
def gruSel (M : GRUWord2Vec) (L lst : ℕ) (tok : Token) : Vec :=
  (M.encoder.run (tokOneHots M.chars L tok)).getD (pyIdx lst L) []

/-- `GRUWord2Vec.lookup_tokens`: process the batch in slices of `step`
rows and `torch.cat` the per-slice results along dimension 0
(`torch.cat` of an empty list is a runtime error). -/
def gruLookupTokens (M : GRUWord2Vec) (tokens : List (List Token)) :
    Except Err T3 := do
  let outs ← (chunkList step tokens).mapM (gruChunk M)
  match outs with
  | [] => .error .cat
  | _ => .ok outs.flatten

/-- Elementwise maximum of two vectors. -/
def vecMax (u v : Vec) : Vec := List.zipWith max u v

/-- Elementwise maximum of a sequence of vectors (the first seeds the
fold). -/
def seqMax : List Vec → Vec
  | [] => []
  | v :: vs => vs.foldl vecMax v

/-- `torch.max(outputs, dim=1)[0]`: the elementwise maximum over the time
dimension of every sequence in the batch; a runtime error if the time
dimension is empty. -/
def maxOverTime (outputs : List (List Vec)) : Except Err (List Vec) :=
  if outputs.all (fun s => decide (s ≠ [])) then
    .ok (outputs.map seqMax)
  else .error .maxEmpty

/-- The embedding `PoolGRUWord2Vec.lookup_tokens` assigns to a token of
a slice whose padded length is `L`: the elementwise maximum over all
time positions of the GRU outputs on the token's padded one-hot
sequence, padding positions included. -/
def poolSel (M : GRUWord2Vec) (L : ℕ) (tok : Token) : Vec :=
  seqMax (M.encoder.run (tokOneHots M.chars L tok))

/-- One iteration of the `PoolGRUWord2Vec.lookup_tokens` batching loop:
one-hot encode, run the GRU, take `torch.max` over the time dimension,
and `.view` to `B x W x embedding_size`. -/
def poolChunk (M : GRUWord2Vec) (slice : List (List Token)) : Except Err T3 := do
  let p ← chartoken2tensor M.chars slice
  let outputs := p.1.map M.encoder.run
  let pooled ← maxOverTime outputs
  view3 slice.length (width slice) M.embeddingSize pooled

/-- `PoolGRUWord2Vec.lookup_tokens` (a `PoolGRUWord2Vec` is a
`GRUWord2Vec` constructed with `bidirectional=True` by default; only
`lookup_tokens` is overridden). -/
def poolLookupTokens (M : GRUWord2Vec) (tokens : List (List Token)) :
    Except Err T3 := do
  let outs ← (chunkList step tokens).mapM (poolChunk M)
  match outs with
  | [] => .error .cat
  | _ => .ok outs.flatten

/-- Dot product of two vectors. -/
def dot (u v : Vec) : ℚ := (List.zipWith (· * ·) u v).sum

/-- One output scalar of `nn.Conv1d` (cross-correlation): output channel
with filter `wfilter : C x K` and bias `b`, at output position `t`, over
the time-major input `xs : L x C`. -/
def convAt (wfilter : List Vec) (b : ℚ) (K : ℕ) (xs : List Vec) (t : ℕ) : ℚ :=
  b + ((List.range K).map
    (fun j => dot (wfilter.map (fun row => row.getD j 0)) (xs.getD (t + j) []))).sum

/-- The output sequence of an un-padded `nn.Conv1d` along one sequence:
one vector per output position `t \x7b < \x7d L - K + 1`, whose entry for
output channel `e` is `convAt` of filter `e` at `t`. -/
def convOuts (weight : List (List Vec)) (bias : Vec) (K : ℕ)
    (xs : List Vec) : List Vec :=
  (List.range (xs.length - K + 1)).map
    (fun t => List.zipWith (fun wf b => convAt wf b K xs t) weight bias)

/-- An un-padded `nn.Conv1d` applied along one sequence: a runtime error
when the kernel exceeds the input length. -/
def conv1dSeq (weight : List (List Vec)) (bias : Vec) (K : ℕ)
    (xs : List Vec) : Except Err (List Vec) :=
  if xs.length < K then .error .conv
  else .ok (convOuts weight bias K xs)

/-- `CNNWord2Vec.__init__`: keeps `char2id`/`num_chars`,
`embedding_size`, and the convolution
`nn.Conv1d(num_chars, embedding_size, kernel_size=kernel_size)` with its
weight (`embedding_size x num_chars x kernel_size`) and bias
(`embedding_size`); `kernel_size` defaults to `3` and must be
positive. -/
structure CNNWord2Vec where
  chars : CharW2V
  embeddingSize : ℕ
  kernelSize : ℕ
  kernel_pos : 0 < kernelSize
  weight : List (List Vec)
  bias : Vec
  weight_len : weight.length = embeddingSize
  bias_len : bias.length = embeddingSize

/-- The convolution outputs over the padded one-hot sequence of one
token: `CNNWord2Vec`'s convolution applied along the token's character
sequence padded up to length `L`. -/
def convVals (M : CNNWord2Vec) (L : ℕ) (tok : Token) : List Vec :=
  convOuts M.weight M.bias M.kernelSize (tokOneHots M.chars L tok)

/-- `CNNWord2Vec.lookup_tokens`: one-hot encode the whole batch (no
slicing loop), apply the convolution along each padded character
sequence, take `torch.max` over the output positions, and `.view` to
`B x W x embedding_size`. -/
def cnnLookupTokens (M : CNNWord2Vec) (tokens : List (List Token)) :
    Except Err T3 := do
  let p ← chartoken2tensor M.chars tokens
  let outputs ← p.1.mapM (conv1dSeq M.weight M.bias M.kernelSize)
  let pooled ← maxOverTime outputs
  view3 tokens.length (width tokens) M.embeddingSize pooled

/-- `CharWord2Vec.lookup`: look a single token up through the model's
`lookup_tokens` on the `1 x 1` batch `np.array([[token]])`. -/
def lookupVia (lookupTokens : List (List Token) → Except Err T3)
    (token : Token) : Except Err T3 :=
  lookupTokens [[token]]

/-- `lookup` of a `GRUWord2Vec`. -/
def GRUWord2Vec.lookup (M : GRUWord2Vec) (token : Token) : Except Err T3 :=
  lookupVia (gruLookupTokens M) token

/-- `lookup` of a `PoolGRUWord2Vec`. -/
def poolLookup (M : GRUWord2Vec) (token : Token) : Except Err T3 :=
  lookupVia (poolLookupTokens M) token

/-- `lookup` of a `CNNWord2Vec`. -/
def CNNWord2Vec.lookup (M : CNNWord2Vec) (token : Token) : Except Err T3 :=
  lookupVia (cnnLookupTokens M) token

/-! ### Concrete instances for witnesses and counterexamples -/

/-- A two-character vocabulary `a ↦ 0`, `b ↦ 1` (as produced by
enumerating the characters of a corpus). -/
def c2idAB : Char → Option ℕ :=
  fun ch => if ch = 'a' then some 0 else if ch = 'b' then some 1 else none

/-- `CharWord2Vec` data over the two-character vocabulary. -/
def charsAB : CharW2V := ⟨c2idAB, 2⟩

/-- A directional encoder producing the constant vector
`replicate E c` at every position. -/
def constEncoder (E : ℕ) (c : ℚ) : SeqEncoder where
  outDim := E
  run := fun xs => xs.map (fun _ => List.replicate E c)
  run_length := by intro xs; simp
  run_dim := by
    intro xs v hv
    rcases List.mem_map.mp hv with ⟨a, _, h⟩
    simp [← h]

/-- A directional encoder whose output at position `t` is the constant
vector `replicate E t`: it distinguishes time positions, as a GRU's
evolving hidden state does. -/
def posEncoder (E : ℕ) : SeqEncoder where
  outDim := E
  run := fun xs => (List.range xs.length).map
    (fun (t : ℕ) => List.replicate E (t : ℚ))
  run_length := by intro xs; simp
  run_dim := by
    intro xs v hv
    rcases List.mem_map.mp hv with ⟨a, _, h⟩
    simp [← h]

/-- A unidirectional `GRUWord2Vec` with `embedding_size = 1` whose
encoder output at time `t` is `[t]`. -/
def MgPos : GRUWord2Vec where
  chars := charsAB
  embeddingSize := 1
  bidirectional := false
  fwd := posEncoder 1
  bwd := posEncoder 1
  fwd_dim := rfl
  bwd_dim := by intro h; cases h

/-- A bidirectional `GRUWord2Vec` with the odd `embedding_size = 3`:
each GRU direction gets hidden size `3 // 2 = 1`. -/
def MgBi3 : GRUWord2Vec where
  chars := charsAB
  embeddingSize := 3
  bidirectional := true
  fwd := constEncoder 1 0
  bwd := constEncoder 1 0
  fwd_dim := rfl
  bwd_dim := fun _ => rfl

/-- A bidirectional `GRUWord2Vec` with `embedding_size = 2` whose
directional encoders distinguish time positions (also the underlying
model of a `PoolGRUWord2Vec`, whose default is `bidirectional=True`). -/
def MgBi2 : GRUWord2Vec where
  chars := charsAB
  embeddingSize := 2
  bidirectional := true
  fwd := posEncoder 1
  bwd := posEncoder 1
  fwd_dim := rfl
  bwd_dim := fun _ => rfl

/-- A `CNNWord2Vec` with `embedding_size = 1` and the default
`kernel_size = 3`: its single filter sums the `a`-channel over each
window. -/
def Mcnn : CNNWord2Vec where
  chars := charsAB
  embeddingSize := 1
  kernelSize := 3
  kernel_pos := by decide
  weight := [[[1, 1, 1], [0, 0, 0]]]
  bias := [0]
  weight_len := rfl
  bias_len := rfl

/-! ### Basic list lemmas -/

theorem foldl_max_init_le (l : List ℕ) (a : ℕ) : a ≤ l.foldl max a := by
  induction l generalizing a with
  | nil => exact le_refl a
  | cons x xs ih => exact le_trans (le_max_left a x) (ih (max a x))

theorem foldl_max_le (l : List ℕ) (a : ℕ) : ∀ x ∈ l, x ≤ l.foldl max a := by
  induction l generalizing a with
  | nil => intro x hx; simp at hx
  | cons y ys ih =>
    intro x hx
    rcases List.mem_cons.mp hx with h | h
    · subst h
      exact le_trans (le_max_right a x) (foldl_max_init_le ys (max a x))
    · exact ih (max a y) x h

theorem le_pyMax (l : List ℕ) : ∀ x ∈ l, x ≤ pyMax l := by
  intro x hx
  cases l with
  | nil => simp at hx
  | cons y ys =>
    rcases List.mem_cons.mp hx with h | h
    · subst h; exact foldl_max_init_le ys x
    · exact foldl_max_le ys y x h

theorem flatten_length_uniform {α : Type} (vs : List (List α)) (E : ℕ)
    (h : ∀ v ∈ vs, v.length = E) : vs.flatten.length = vs.length * E := by
  induction vs with
  | nil => simp
  | cons v vs ih =>
    simp only [List.flatten_cons, List.length_append, List.length_cons]
    rw [h v (by simp), ih (fun w hw => h w (by simp [hw]))]
    ring

theorem flatten_length_rect {α : Type} (tokens : List (List α)) (W : ℕ)
    (h : ∀ row ∈ tokens, row.length = W) :
    tokens.flatten.length = tokens.length * W :=
  flatten_length_uniform tokens W h

/-! ### Chunking lemmas -/

theorem chunkGo_flatten {α : Type} (n : ℕ) (fuel : ℕ) (l : List α)
    (h : l.length ≤ fuel) : (chunkGo n fuel l).flatten = l := by
  induction fuel generalizing l with
  | zero =>
    have : l = [] := List.length_eq_zero.mp (Nat.le_zero.mp h)
    subst this; rfl
  | succ fuel ih =>
    cases l with
    | nil => rfl
    | cons x xs =>
      simp only [chunkGo, List.flatten_cons]
      rw [ih (List.drop (n - 1) xs) ?_]
      · simp [List.take_append_drop]
      · calc (List.drop (n - 1) xs).length ≤ xs.length := by
              simp [List.length_drop]
          _ ≤ fuel := by
              have := h; simp only [List.length_cons] at this; omega

theorem chunkList_flatten {α : Type} (n : ℕ) (l : List α) :
    (chunkList n l).flatten = l :=
  chunkGo_flatten n l.length l (le_refl _)

theorem chunkGo_shape {α : Type} (n : ℕ) (fuel : ℕ) (l : List α) :
    ∀ c ∈ chunkGo n fuel l, ∃ x rest, c = x :: rest ∧ x ∈ l := by
  induction fuel generalizing l with
  | zero => intro c hc; simp [chunkGo] at hc
  | succ fuel ih =>
    intro c hc
    cases l with
    | nil => simp [chunkGo] at hc
    | cons x xs =>
      simp only [chunkGo, List.mem_cons] at hc
      rcases hc with h | h
      · exact ⟨x, List.take (n - 1) xs, h, by simp⟩
      · rcases ih (List.drop (n - 1) xs) c h with ⟨y, rest, hcy, hy⟩
        exact ⟨y, rest, hcy, by
          have : y ∈ xs := List.mem_of_mem_drop hy
          simp [this]⟩

theorem chunkList_shape {α : Type} (n : ℕ) (l : List α) :
    ∀ c ∈ chunkList n l, ∃ x rest, c = x :: rest ∧ x ∈ l :=
  chunkGo_shape n l.length l

theorem mem_of_mem_chunkList {α : Type} {n : ℕ} {l : List α}
    {c : List α} {x : α} (hc : c ∈ chunkList n l) (hx : x ∈ c) : x ∈ l := by
  have : x ∈ (chunkList n l).flatten := List.mem_flatten.mpr ⟨c, hc, hx⟩
  rwa [chunkList_flatten] at this

theorem chunkList_ne_nil {α : Type} {n : ℕ} {l : List α} (h : l ≠ []) :
    chunkList n l ≠ [] := by
  cases l with
  | nil => exact absurd rfl h
  | cons x xs => simp [chunkList, chunkGo]

theorem chunkGo_fuel_irrel {α : Type} (n : ℕ) (fuel₁ fuel₂ : ℕ) (l : List α)
    (h₁ : l.length ≤ fuel₁) (h₂ : l.length ≤ fuel₂) :
    chunkGo n fuel₁ l = chunkGo n fuel₂ l := by
  induction fuel₁ generalizing fuel₂ l with
  | zero =>
    have : l = [] := List.length_eq_zero.mp (Nat.le_zero.mp h₁)
    subst this
    cases fuel₂ <;> rfl
  | succ fuel ih =>
    cases l with
    | nil => cases fuel₂ <;> rfl
    | cons x xs =>
      cases fuel₂ with
      | zero => simp at h₂
      | succ fuel₂ =>
        simp only [chunkGo]
        congr 1
        apply ih
        · have := h₁
          simp only [List.length_cons] at this
          calc (List.drop (n - 1) xs).length ≤ xs.length := by simp
            _ ≤ fuel := by omega
        · have := h₂
          simp only [List.length_cons] at this
          calc (List.drop (n - 1) xs).length ≤ xs.length := by simp
            _ ≤ fuel₂ := by omega

theorem chunkList_cons_of_length {α : Type} {n : ℕ} (v rest : List α)
    (hv : v.length = n) (hn : 0 < n) :
    chunkList n (v ++ rest) = v :: chunkList n rest := by
  cases v with
  | nil => simp at hv; omega
  | cons x xs =>
    simp only [chunkList, List.cons_append, List.length_cons, List.length_append]
    simp only [List.length_cons] at hv
    rw [show xs.length + rest.length + 1 = (xs.length + rest.length) + 1 from rfl]
    simp only [chunkGo]
    have htake : List.take (n - 1) (xs ++ rest) = xs := by
      have : n - 1 = xs.length := by omega
      rw [this]
      exact List.take_left xs rest
    have hdrop : List.drop (n - 1) (xs ++ rest) = rest := by
      have : n - 1 = xs.length := by omega
      rw [this]
      exact List.drop_left xs rest
    rw [htake, hdrop]
    congr 1
    exact chunkGo_fuel_irrel n _ _ rest (by omega) (le_refl _)

theorem chunkList_flatten_of_uniform {α : Type} (E : ℕ) (vs : List (List α))
    (hE : 0 < E) (h : ∀ v ∈ vs, v.length = E) :
    chunkList E vs.flatten = vs := by
  induction vs with
  | nil => rfl
  | cons v vs ih =>
    rw [List.flatten_cons, chunkList_cons_of_length v vs.flatten (h v (by simp)) hE,
      ih (fun w hw => h w (by simp [hw]))]

theorem chunkList_struct {α : Type} (W B : ℕ) (vs : List α)
    (hW : 0 < W) (hlen : vs.length = B * W) :
    (chunkList W vs).length = B ∧ (∀ r ∈ chunkList W vs, r.length = W) ∧
      (chunkList W vs).flatten = vs := by
  induction B generalizing vs with
  | zero =>
    have : vs = [] := List.length_eq_zero.mp (by simpa using hlen)
    subst this
    exact ⟨rfl, by intro r hr; simp [chunkList, chunkGo] at hr, rfl⟩
  | succ B ih =>
    have hWle : W ≤ vs.length := by rw [hlen]; nlinarith
    have hsplit : vs = List.take W vs ++ List.drop W vs := (List.take_append_drop W vs).symm
    have htlen : (List.take W vs).length = W := by simp [List.length_take]; omega
    have hdlen : (List.drop W vs).length = B * W := by
      simp [List.length_drop, hlen]
      ring_nf
      omega
    rcases ih (List.drop W vs) hdlen with ⟨ih1, ih2, ih3⟩
    rw [hsplit, chunkList_cons_of_length _ _ htlen hW]
    refine ⟨by simp [ih1], ?_, by simp [ih3]⟩
    intro r hr
    rcases List.mem_cons.mp hr with h | h
    · subst h; exact htlen
    · exact ih2 r h

/-! ### `mapM` and `Forall₂` helpers over `Except` -/

theorem except_bind_ok {α β : Type} {x : Except Err α} {a : α}
    (f : α → Except Err β) (h : x = .ok a) : (x >>= f) = f a := by
  subst h; rfl

theorem mapM_ok_of_forall {α β : Type} (f : α → Except Err β)
    (p : α → β → Prop) (l : List α)
    (h : ∀ a ∈ l, ∃ b, f a = .ok b ∧ p a b) :
    ∃ bs, l.mapM f = .ok bs ∧ List.Forall₂ p l bs := by
  induction l with
  | nil => exact ⟨[], rfl, List.Forall₂.nil⟩
  | cons a l ih =>
    rcases h a (by simp) with ⟨b, hb, hp⟩
    rcases ih (fun x hx => h x (by simp [hx])) with ⟨bs, hbs, hps⟩
    refine ⟨b :: bs, ?_, List.Forall₂.cons hp hps⟩
    rw [List.mapM_cons, except_bind_ok _ hb, except_bind_ok _ hbs]
    rfl

theorem mapM_eq_map_of_forall_ok {α β : Type} (f : α → Except Err β)
    (g : α → β) (l : List α) (h : ∀ a ∈ l, f a = .ok (g a)) :
    l.mapM f = .ok (l.map g) := by
  induction l with
  | nil => rfl
  | cons a l ih =>
    rw [List.mapM_cons, except_bind_ok _ (h a (by simp)),
      except_bind_ok _ (ih (fun x hx => h x (by simp [hx])))]
    rfl

theorem mapM_error_head {α β : Type} (f : α → Except Err β) (a : α)
    (l : List α) (e : Err) (h : f a = .error e) :
    (a :: l).mapM f = .error e := by
  rw [List.mapM_cons, h]
  rfl

theorem forall₂_mem_right {α β : Type} {p : α → β → Prop}
    {l₁ : List α} {l₂ : List β} (h : List.Forall₂ p l₁ l₂) :
    ∀ b ∈ l₂, ∃ a ∈ l₁, p a b := by
  induction h with
  | nil => intro b hb; simp at hb
  | cons hp _ ih =>
    intro b hb
    rcases List.mem_cons.mp hb with h | h
    · subst h; exact ⟨_, by simp, hp⟩
    · rcases ih b h with ⟨a, ha, hab⟩
      exact ⟨a, by simp [ha], hab⟩

theorem flatten_length_of_forall₂ {α β : Type}
    {p : List α → List β → Prop} {l₁ : List (List α)} {l₂ : List (List β)}
    (hp : ∀ a b, p a b → b.length = a.length) (h : List.Forall₂ p l₁ l₂) :
    l₂.flatten.length = l₁.flatten.length := by
  induction h with
  | nil => rfl
  | cons hab _ ih =>
    simp only [List.flatten_cons, List.length_append]
    rw [ih, hp _ _ hab]

/-! ### One-hot encoder lemmas -/

theorem oneHot_length (n i : ℕ) : (oneHot n i).length = n := by
  simp [oneHot]

theorem oneHot_getD (n i j : ℕ) (hj : j < n) :
    (oneHot n i).getD j 0 = if j = i then (1 : ℚ) else 0 := by
  rw [oneHot, List.getD_eq_getElem?_getD]
  rw [List.getElem?_map]
  simp [List.getElem?_range hj]

theorem oneHot_pad (n : ℕ) : oneHot n n = List.replicate n 0 := by
  have hmem : ∀ b ∈ oneHot n n, b = (0 : ℚ) := by
    intro b hb
    rcases List.mem_map.mp hb with ⟨j, hj, hjb⟩
    have : j < n := List.mem_range.mp hj
    rw [← hjb, if_neg (by omega)]
  have h := List.eq_replicate_length.mpr hmem
  rwa [oneHot_length] at h

theorem encRow_eq (n i : ℕ) (h : i < n + 1) : encRow n i = oneHot n i := by
  rw [encRow, charEncoderWeight, List.getD_eq_getElem?_getD, List.getElem?_map]
  simp [List.getElem?_range h]

theorem encRow_length (n i : ℕ) (h : i < n + 1) : (encRow n i).length = n := by
  rw [encRow_eq n i h, oneHot_length]

theorem encRow_pad (n : ℕ) : encRow n n = List.replicate n 0 := by
  rw [encRow_eq n n (by omega), oneHot_pad]

/-! ### `chartoken2tensor` characterization -/

/-- Every character of every token of the batch is a key of `char2id`,
with an id below `num_chars` (ids are positions of an enumeration of the
character vocabulary). -/
abbrev CharsOK (M : CharW2V) (tokens : List (List Token)) : Prop :=
  ∀ tok ∈ tokens.flatten, ∀ ch ∈ tok,
    (M.char2id ch).isSome = true ∧ (M.char2id ch).getD 0 < M.numChars

theorem tokIds_length (M : CharW2V) (tok : Token) :
    (tokIds M tok).length = tok.length := by
  simp [tokIds]

theorem charLookup_tok (M : CharW2V) (tok : Token)
    (h : ∀ ch ∈ tok, (M.char2id ch).isSome = true) :
    tok.mapM (charLookup M) = .ok (tokIds M tok) := by
  apply mapM_eq_map_of_forall_ok
  intro ch hch
  rcases Option.isSome_iff_exists.mp (h ch hch) with ⟨i, hi⟩
  simp [charLookup, hi]

theorem chartokenCore_ok (M : CharW2V) (t : Token) (ts : List Token)
    (hid : ∀ tok ∈ t :: ts, ∀ ch ∈ tok, (M.char2id ch).getD 0 < M.numChars) :
    chartokenCore M ((t :: ts).map (tokIds M)) =
      .ok ((t :: ts).map (tokOneHots M (pyMax ((t :: ts).map List.length))),
        (t :: ts).map List.length) := by
  have hmaps : (List.map (tokIds M) ts).map List.length = ts.map List.length := by
    rw [List.map_map]
    exact List.map_congr_left (fun tok _ => tokIds_length M tok)
  simp only [List.map_cons, chartokenCore, pyMax]
  rw [hmaps, tokIds_length M t]
  have key : ∀ tok ∈ t :: ts, ∀ i ∈ tokIds M tok ++
      List.replicate ((ts.map List.length).foldl max t.length - tok.length)
        M.numChars, i < M.numChars + 1 := by
    intro tok htok i hi
    rcases List.mem_append.mp hi with h | h
    · rcases List.mem_map.mp h with ⟨ch, hc, hci⟩
      have := hid tok htok ch hc
      omega
    · have := List.eq_of_mem_replicate h
      omega
  rw [if_pos ?hg]
  case hg =>
    rw [List.all_eq_true]
    intro row hrow
    rw [List.all_eq_true]
    intro i hi
    apply decide_eq_true
    rcases List.mem_cons.mp hrow with h | h
    · subst h
      exact key t (by simp) i hi
    · rcases List.mem_map.mp h with ⟨ca, hca, hrow2⟩
      rcases List.mem_map.mp hca with ⟨tok, htok, hcatok⟩
      subst hcatok
      rw [tokIds_length] at hrow2
      subst hrow2
      exact key tok (by simp [htok]) i hi
  simp [tokOneHots, paddedIds, tokIds_length, List.map_map, Function.comp]

theorem chartoken2tensor_ok (M : CharW2V) (tokens : List (List Token))
    (hrect : ∀ row ∈ tokens, row.length = width tokens)
    (hne : tokens.flatten ≠ [])
    (hch : CharsOK M tokens) :
    chartoken2tensor M tokens =
      .ok (tokens.flatten.map (tokOneHots M (batchMaxLen tokens)),
        tokens.flatten.map List.length) := by
  have hmapM : tokens.flatten.mapM (fun tok => tok.mapM (charLookup M)) =
      .ok (tokens.flatten.map (tokIds M)) := by
    apply mapM_eq_map_of_forall_ok
    intro tok htok
    exact charLookup_tok M tok (fun ch hc => (hch tok htok ch hc).1)
  rcases List.exists_cons_of_ne_nil hne with ⟨t, ts, hflat⟩
  rw [chartoken2tensor, if_pos ?hg1]
  case hg1 =>
    rw [List.all_eq_true]
    intro row hrow
    exact decide_eq_true (hrect row hrow)
  show (tokens.flatten.mapM (fun tok => tok.mapM (charLookup M)) >>=
    chartokenCore M) = _
  rw [except_bind_ok _ hmapM, batchMaxLen, hflat]
  exact chartokenCore_ok M t ts
    (fun tok htok ch hc => (hch tok (hflat ▸ htok) ch hc).2)

/-! ### Shape lemmas and error cases -/

theorem tokOneHots_length (M : CharW2V) (L : ℕ) (tok : Token)
    (h : tok.length ≤ L) : (tokOneHots M L tok).length = L := by
  simp only [tokOneHots, paddedIds, List.length_map, List.length_append,
    List.length_replicate, tokIds_length]
  omega

theorem tokOneHots_dim (M : CharW2V) (L : ℕ) (tok : Token)
    (hid : ∀ ch ∈ tok, (M.char2id ch).getD 0 < M.numChars) :
    ∀ v ∈ tokOneHots M L tok, v.length = M.numChars := by
  intro v hv
  rcases List.mem_map.mp hv with ⟨i, hi, hiv⟩
  subst hiv
  rcases List.mem_append.mp hi with h | h
  · rcases List.mem_map.mp h with ⟨ch, hc, hci⟩
    subst hci
    exact encRow_length _ _ (by have := hid ch hc; omega)
  · have := List.eq_of_mem_replicate h
    subst this
    exact encRow_length _ _ (by omega)

theorem chartoken2tensor_empty (M : CharW2V) (tokens : List (List Token))
    (hrect : ∀ row ∈ tokens, row.length = width tokens)
    (hflat : tokens.flatten = []) :
    chartoken2tensor M tokens = .error .emptyMax := by
  rw [chartoken2tensor, if_pos ?hg]
  case hg =>
    rw [List.all_eq_true]
    intro row hrow
    exact decide_eq_true (hrect row hrow)
  show (tokens.flatten.mapM (fun tok => tok.mapM (charLookup M)) >>=
    chartokenCore M) = _
  rw [hflat]
  rfl

theorem batchMaxLen_ge (tokens : List (List Token)) :
    ∀ tok ∈ tokens.flatten, tok.length ≤ batchMaxLen tokens := by
  intro tok htok
  exact le_pyMax _ _ (List.mem_map_of_mem List.length htok)

theorem batchMaxLen_pos (tokens : List (List Token)) (tok : Token)
    (htok : tok ∈ tokens.flatten) (hne : tok ≠ []) :
    0 < batchMaxLen tokens := by
  have h1 : 0 < tok.length := List.length_pos.mpr hne
  exact lt_of_lt_of_le h1 (batchMaxLen_ge tokens tok htok)

theorem flatten_ne_nil (slice : List (List Token))
    (hs : slice ≠ [])
    (hrect : ∀ row ∈ slice, row.length = width slice)
    (hW : 0 < width slice) : slice.flatten ≠ [] := by
  rcases List.exists_cons_of_ne_nil hs with ⟨x, rest, hx⟩
  subst hx
  have hxlen : x.length = width (x :: rest) := hrect x (by simp)
  have hxne : x ≠ [] := by
    intro h
    rw [← hxlen, h] at hW
    simp at hW
  simp only [List.flatten_cons]
  intro h
  rcases List.append_eq_nil.mp h with ⟨h1, _⟩
  exact hxne h1

/-! ### Selection-loop lemmas -/

theorem pyLast_mem (l : List ℕ) (h : l ≠ []) : pyLast l ∈ l := by
  induction l with
  | nil => exact absurd rfl h
  | cons x xs ih =>
    cases xs with
    | nil => simp [pyLast]
    | cons y ys =>
      have := ih (by simp)
      simp only [pyLast]
      exact List.mem_cons_of_mem x this

theorem pyIdx_lt (l L : ℕ) (hpos : 0 < L) (hle : l ≤ L) : pyIdx l L < L := by
  rw [pyIdx]
  split <;> omega

theorem selectTimePy_ok (l L : ℕ) (outputs : List (List Vec))
    (hL : ∀ s ∈ outputs, s.length = L) (hpos : 0 < L) (hle : l ≤ L) :
    selectTimePy l outputs =
      .ok (outputs.map (fun s => s.getD (pyIdx l L) [])) := by
  by_cases h0 : l = 0
  · subst h0
    have hg1 : (outputs.all fun s => decide (0 < s.length)) = true := by
      rw [List.all_eq_true]
      intro s hs
      exact decide_eq_true (by rw [hL s hs]; exact hpos)
    rw [selectTimePy, if_pos rfl, if_pos hg1]
    congr 1
    apply List.map_congr_left
    intro s hs
    rw [hL s hs, pyIdx, if_pos rfl]
  · have hg2 : (outputs.all fun s => decide (l - 1 < s.length)) = true := by
      rw [List.all_eq_true]
      intro s hs
      exact decide_eq_true (by rw [hL s hs]; omega)
    rw [selectTimePy, if_neg h0, if_pos hg2]
    congr 1
    apply List.map_congr_left
    intro s _
    rw [pyIdx, if_neg h0]

theorem fillLoop_ok (outputs : List (List Vec)) (acc : List Vec) (L : ℕ)
    (seqLens : List ℕ) (hL : ∀ s ∈ outputs, s.length = L) (hpos : 0 < L)
    (hle : ∀ x ∈ seqLens, x ≤ L) (hne : seqLens ≠ []) :
    fillLoop outputs acc seqLens =
      .ok (outputs.map (fun s => s.getD (pyIdx (pyLast seqLens) L) [])) := by
  induction seqLens generalizing acc with
  | nil => exact absurd rfl hne
  | cons l ls ih =>
    rw [fillLoop, except_bind_ok _
      (selectTimePy_ok l L outputs hL hpos (hle l (by simp)))]
    cases ls with
    | nil => rw [fillLoop, pyLast]
    | cons l2 ls2 =>
      rw [ih _ (fun x hx => hle x (by simp [hx])) (by simp)]
      rw [show pyLast (l :: l2 :: ls2) = pyLast (l2 :: ls2) from rfl]

/-! ### `view3` reconstruction -/

theorem view3_ok (B W E : ℕ) (vs : List Vec) (hE : 0 < E)
    (hlen : vs.length = B * W) (hdim : ∀ v ∈ vs, v.length = E) :
    view3 B W E vs = .ok (chunkList W vs) := by
  rw [view3, if_pos ?g]
  case g =>
    rw [flatten_length_uniform vs E hdim, hlen, Nat.mul_assoc]
  rw [chunkList_flatten_of_uniform E vs hE hdim]

theorem getD_mem {α : Type} (l : List α) (i : ℕ) (d : α) (h : i < l.length) :
    l.getD i d ∈ l := by
  rw [List.getD_eq_getElem l d h]
  exact List.getElem_mem h

/-! ### `GRUWord2Vec.lookup_tokens` characterization -/

theorem gruChunk_ok (M : GRUWord2Vec) (slice : List (List Token))
    (hs : slice ≠ [])
    (hrect : ∀ row ∈ slice, row.length = width slice)
    (hW : 0 < width slice)
    (hne : ∀ tok ∈ slice.flatten, tok ≠ [])
    (hch : CharsOK M.chars slice)
    (hdim : M.encoder.outDim = M.embeddingSize)
    (hE : 0 < M.embeddingSize) :
    gruChunk M slice = .ok (chunkList (width slice)
      (slice.flatten.map (gruSel M (batchMaxLen slice)
        (pyLast (slice.flatten.map List.length))))) := by
  have hflatne : slice.flatten ≠ [] := flatten_ne_nil slice hs hrect hW
  rcases List.exists_cons_of_ne_nil hflatne with ⟨tk, rest, hfl⟩
  have hLpos : 0 < batchMaxLen slice :=
    batchMaxLen_pos slice tk (by rw [hfl]; simp) (hne tk (by rw [hfl]; simp))
  have hctt := chartoken2tensor_ok M.chars slice hrect hflatne hch
  have houts_len : ∀ s ∈ (slice.flatten.map
      (tokOneHots M.chars (batchMaxLen slice))).map M.encoder.run,
      s.length = batchMaxLen slice := by
    intro s hs2
    rcases List.mem_map.mp hs2 with ⟨oh, hoh, hohs⟩
    rcases List.mem_map.mp hoh with ⟨tok, htok, htokoh⟩
    subst hohs
    subst htokoh
    rw [M.encoder.run_length,
      tokOneHots_length _ _ _ (batchMaxLen_ge slice tok htok)]
  have hsle : ∀ x ∈ slice.flatten.map List.length, x ≤ batchMaxLen slice := by
    intro x hx
    rcases List.mem_map.mp hx with ⟨tok, htok, hlx⟩
    subst hlx
    exact batchMaxLen_ge slice tok htok
  have hsne : slice.flatten.map List.length ≠ [] := by
    rw [hfl]
    simp
  have hidx : pyIdx (pyLast (slice.flatten.map List.length))
      (batchMaxLen slice) < batchMaxLen slice :=
    pyIdx_lt _ _ hLpos (hsle _ (pyLast_mem _ hsne))
  simp only [gruChunk]
  rw [except_bind_ok _ hctt]
  simp only []
  rw [fillLoop_ok _ _ (batchMaxLen slice) _ houts_len hLpos hsle hsne]
  show (Except.ok _ >>= _) = _
  rw [except_bind_ok _ rfl]
  have hsel : ((slice.flatten.map
        (tokOneHots M.chars (batchMaxLen slice))).map M.encoder.run).map
      (fun s => s.getD (pyIdx (pyLast (slice.flatten.map List.length))
        (batchMaxLen slice)) []) =
      slice.flatten.map (gruSel M (batchMaxLen slice)
        (pyLast (slice.flatten.map List.length))) := by
    rw [List.map_map, List.map_map]
    rfl
  rw [hsel]
  apply view3_ok _ _ _ _ hE
  · rw [List.length_map, flatten_length_rect slice (width slice) hrect]
  · intro v hv
    rcases List.mem_map.mp hv with ⟨tok, htok, htv⟩
    subst htv
    rw [gruSel]
    have hmem : (M.encoder.run (tokOneHots M.chars (batchMaxLen slice)
        tok)).getD (pyIdx (pyLast (slice.flatten.map List.length))
          (batchMaxLen slice)) [] ∈
        M.encoder.run (tokOneHots M.chars (batchMaxLen slice) tok) := by
      apply getD_mem
      rw [M.encoder.run_length,
        tokOneHots_length _ _ _ (batchMaxLen_ge slice tok htok)]
      exact hidx
    rw [M.encoder.run_dim _ _ hmem, hdim]

/-- Membership in a `zipWith` comes from paired members. -/
theorem mem_zipWith {α β γ : Type} {f : α → β → γ} {as : List α}
    {bs : List β} {c : γ} (h : c ∈ List.zipWith f as bs) :
    ∃ a ∈ as, ∃ b ∈ bs, c = f a b := by
  induction as generalizing bs with
  | nil => simp [List.zipWith] at h
  | cons a as ih =>
    cases bs with
    | nil => simp [List.zipWith] at h
    | cons b bs =>
      simp only [List.zipWith, List.mem_cons] at h
      rcases h with h | h
      · exact ⟨a, by simp, b, by simp, h⟩
      · rcases ih h with ⟨a1, ha1, b1, hb1, hc⟩
        exact ⟨a1, by simp [ha1], b1, by simp [hb1], hc⟩

theorem biRun_decomp (f b : SeqEncoder) (xs : List Vec) (v : Vec)
    (hv : v ∈ biRun f b xs) :
    ∃ u w, v = u ++ w ∧ u.length = f.outDim ∧ w.length = b.outDim := by
  rw [biRun] at hv
  rcases mem_zipWith hv with ⟨u, hu, w, hw, hvw⟩
  exact ⟨u, w, hvw, f.run_dim xs u hu,
    b.run_dim xs.reverse w (List.mem_reverse.mp hw)⟩

theorem gruSel_mem_run (M : GRUWord2Vec) (L lst : ℕ) (tok : Token)
    (hlen : tok.length ≤ L) (hLpos : 0 < L) (hle : lst ≤ L) :
    gruSel M L lst tok ∈ M.encoder.run (tokOneHots M.chars L tok) := by
  rw [gruSel]
  apply getD_mem
  rw [M.encoder.run_length, tokOneHots_length _ _ _ hlen]
  exact pyIdx_lt _ _ hLpos hle

theorem chunk_facts (tokens : List (List Token)) (c : List (List Token))
    (n : ℕ) (hc : c ∈ chunkList n tokens)
    (hrect : ∀ row ∈ tokens, row.length = width tokens) :
    c ≠ [] ∧ width c = width tokens ∧ (∀ row ∈ c, row.length = width c) ∧
      (∀ tok ∈ c.flatten, tok ∈ tokens.flatten) := by
  rcases chunkList_shape n tokens c hc with ⟨x, rest, hcx, hx⟩
  have hwc : width c = width tokens := by
    rw [hcx]
    show x.length = width tokens
    exact hrect x hx
  have hsub : ∀ tok ∈ c.flatten, tok ∈ tokens.flatten := by
    intro tok htok
    rcases List.mem_flatten.mp htok with ⟨row, hrow, htr⟩
    exact List.mem_flatten.mpr ⟨row, mem_of_mem_chunkList hc hrow, htr⟩
  refine ⟨by rw [hcx]; simp, hwc, ?_, hsub⟩
  intro row hrow
  rw [hwc]
  exact hrect row (mem_of_mem_chunkList hc hrow)

/-- Full characterization of `GRUWord2Vec.lookup_tokens` on a
well-formed non-empty batch: it succeeds, has shape
`B x W x embedding_size`, and every embedding vector is the GRU output
of its token's padded sequence read at the position determined by the
LAST `seq_len` of the token's slice. -/
theorem gruLookupTokens_ok (M : GRUWord2Vec) (tokens : List (List Token))
    (hB : tokens ≠ [])
    (hrect : ∀ row ∈ tokens, row.length = width tokens)
    (hW : 0 < width tokens)
    (hne : ∀ tok ∈ tokens.flatten, tok ≠ [])
    (hch : CharsOK M.chars tokens)
    (hdim : M.encoder.outDim = M.embeddingSize)
    (hE : 0 < M.embeddingSize) :
    ∃ r, gruLookupTokens M tokens = .ok r ∧ r.length = tokens.length ∧
      (∀ row ∈ r, row.length = width tokens) ∧
      (∀ row ∈ r, ∀ v ∈ row, ∃ c ∈ chunkList step tokens, ∃ tok ∈ c.flatten,
        v = gruSel M (batchMaxLen c) (pyLast (c.flatten.map List.length)) tok ∧
        v ∈ M.encoder.run (tokOneHots M.chars (batchMaxLen c) tok) ∧
        v.length = M.embeddingSize) := by
  have hmapM := mapM_ok_of_forall (gruChunk M)
    (fun c rc => rc.length = c.length ∧ (∀ row ∈ rc, row.length = width tokens) ∧
      ∀ row ∈ rc, ∀ v ∈ row, ∃ tok ∈ c.flatten,
        v = gruSel M (batchMaxLen c) (pyLast (c.flatten.map List.length)) tok ∧
        v ∈ M.encoder.run (tokOneHots M.chars (batchMaxLen c) tok) ∧
        v.length = M.embeddingSize)
    (chunkList step tokens) ?hall
  case hall =>
    intro c hc
    rcases chunk_facts tokens c step hc hrect with ⟨hcne, hwc, hrc, hsub⟩
    have hWc : 0 < width c := by rw [hwc]; exact hW
    have hnec : ∀ tok ∈ c.flatten, tok ≠ [] := fun tok htok => hne tok (hsub tok htok)
    have hchc : CharsOK M.chars c := fun tok htok => hch tok (hsub tok htok)
    have hflatne : c.flatten ≠ [] := flatten_ne_nil c hcne hrc hWc
    rcases List.exists_cons_of_ne_nil hflatne with ⟨tk, rest, hfl⟩
    have hLpos : 0 < batchMaxLen c :=
      batchMaxLen_pos c tk (by rw [hfl]; simp) (hnec tk (by rw [hfl]; simp))
    have hlstle : pyLast (c.flatten.map List.length) ≤ batchMaxLen c := by
      have hm := pyLast_mem (c.flatten.map List.length) (by rw [hfl]; simp)
      rcases List.mem_map.mp hm with ⟨tok, htok, hlx⟩
      rw [← hlx]
      exact batchMaxLen_ge c tok htok
    have hflen : c.flatten.length = c.length * width c := flatten_length_rect c _ hrc
    have hmaplen : (c.flatten.map (gruSel M (batchMaxLen c)
        (pyLast (c.flatten.map List.length)))).length = c.length * width c := by
      rw [List.length_map]; exact hflen
    rcases chunkList_struct (width c) c.length _ hWc hmaplen with ⟨hs1, hs2, hs3⟩
    refine ⟨chunkList (width c) (c.flatten.map (gruSel M (batchMaxLen c)
      (pyLast (c.flatten.map List.length)))),
      gruChunk_ok M c hcne hrc hWc hnec hchc hdim hE, hs1, ?_, ?_⟩
    · intro row hrow
      rw [← hwc]
      exact hs2 row hrow
    · intro row hrow v hv
      have hvflat : v ∈ c.flatten.map (gruSel M (batchMaxLen c)
          (pyLast (c.flatten.map List.length))) := by
        rw [← hs3]
        exact List.mem_flatten.mpr ⟨row, hrow, hv⟩
      rcases List.mem_map.mp hvflat with ⟨tok, htok, hvt⟩
      have hmem : gruSel M (batchMaxLen c) (pyLast (c.flatten.map List.length))
          tok ∈ M.encoder.run (tokOneHots M.chars (batchMaxLen c) tok) :=
        gruSel_mem_run M _ _ tok (batchMaxLen_ge c tok htok) hLpos hlstle
      refine ⟨tok, htok, hvt.symm, by rw [← hvt]; exact hmem, ?_⟩
      rw [← hvt, M.encoder.run_dim _ _ hmem, hdim]
  rcases hmapM with ⟨outs, houts, hfa⟩
  have hchne : chunkList step tokens ≠ [] := chunkList_ne_nil hB
  have houtsne : outs ≠ [] := by
    intro h
    have hlen := List.Forall₂.length_eq hfa
    rw [h] at hlen
    simp only [List.length_nil] at hlen
    exact hchne (List.length_eq_zero.mp hlen)
  rcases List.exists_cons_of_ne_nil houtsne with ⟨o0, orest, ho⟩
  refine ⟨outs.flatten, ?_, ?_, ?_, ?_⟩
  · rw [gruLookupTokens, except_bind_ok _ houts, ho]
  · have h1 := flatten_length_of_forall₂ (fun a b h => h.1) hfa
    rw [h1, chunkList_flatten]
  · intro row hrow
    rcases List.mem_flatten.mp hrow with ⟨rc, hrc, hrr⟩
    rcases forall₂_mem_right hfa rc hrc with ⟨c, _, hp⟩
    exact hp.2.1 row hrr
  · intro row hrow v hv
    rcases List.mem_flatten.mp hrow with ⟨rc, hrc, hrr⟩
    rcases forall₂_mem_right hfa rc hrc with ⟨c, hcmem, hp⟩
    rcases hp.2.2 row hrr v hv with ⟨tok, htok, hsel, hmem, hlen⟩
    exact ⟨c, hcmem, tok, htok, hsel, hmem, hlen⟩

/-! ### `PoolGRUWord2Vec.lookup_tokens` characterization -/

theorem vecMax_length (u v : Vec) (E : ℕ) (hu : u.length = E)
    (hv : v.length = E) : (vecMax u v).length = E := by
  rw [vecMax, List.length_zipWith, hu, hv, min_self]

theorem foldl_vecMax_length (l : List Vec) (acc : Vec) (E : ℕ)
    (hacc : acc.length = E) (h : ∀ v ∈ l, v.length = E) :
    (l.foldl vecMax acc).length = E := by
  induction l generalizing acc with
  | nil => exact hacc
  | cons v vs ih =>
    exact ih (vecMax acc v) (vecMax_length acc v E hacc (h v (by simp)))
      (fun w hw => h w (by simp [hw]))

theorem seqMax_length (vs : List Vec) (E : ℕ) (hne : vs ≠ [])
    (h : ∀ v ∈ vs, v.length = E) : (seqMax vs).length = E := by
  cases vs with
  | nil => exact absurd rfl hne
  | cons v rest =>
    rw [seqMax]
    exact foldl_vecMax_length rest v E (h v (by simp))
      (fun w hw => h w (by simp [hw]))

theorem maxOverTime_ok (outputs : List (List Vec))
    (h : ∀ s ∈ outputs, s ≠ []) :
    maxOverTime outputs = .ok (outputs.map seqMax) := by
  rw [maxOverTime, if_pos ?g]
  case g =>
    rw [List.all_eq_true]
    intro s hs
    exact decide_eq_true (h s hs)

theorem poolSel_dim (M : GRUWord2Vec) (L : ℕ) (tok : Token)
    (hlen : tok.length ≤ L) (hLpos : 0 < L)
    (hdim : M.encoder.outDim = M.embeddingSize) :
    (poolSel M L tok).length = M.embeddingSize := by
  rw [poolSel]
  apply seqMax_length _ M.embeddingSize
  · apply List.ne_nil_of_length_pos
    rw [M.encoder.run_length, tokOneHots_length _ _ _ hlen]
    exact hLpos
  · intro v hv
    rw [M.encoder.run_dim _ _ hv, hdim]

theorem poolChunk_ok (M : GRUWord2Vec) (slice : List (List Token))
    (hs : slice ≠ [])
    (hrect : ∀ row ∈ slice, row.length = width slice)
    (hW : 0 < width slice)
    (hne : ∀ tok ∈ slice.flatten, tok ≠ [])
    (hch : CharsOK M.chars slice)
    (hdim : M.encoder.outDim = M.embeddingSize)
    (hE : 0 < M.embeddingSize) :
    poolChunk M slice = .ok (chunkList (width slice)
      (slice.flatten.map (poolSel M (batchMaxLen slice)))) := by
  have hflatne : slice.flatten ≠ [] := flatten_ne_nil slice hs hrect hW
  rcases List.exists_cons_of_ne_nil hflatne with ⟨tk, rest, hfl⟩
  have hLpos : 0 < batchMaxLen slice :=
    batchMaxLen_pos slice tk (by rw [hfl]; simp) (hne tk (by rw [hfl]; simp))
  have hctt := chartoken2tensor_ok M.chars slice hrect hflatne hch
  have houts_ne : ∀ s ∈ (slice.flatten.map
      (tokOneHots M.chars (batchMaxLen slice))).map M.encoder.run, s ≠ [] := by
    intro s hs2
    rcases List.mem_map.mp hs2 with ⟨oh, hoh, hohs⟩
    rcases List.mem_map.mp hoh with ⟨tok, htok, htokoh⟩
    subst hohs
    subst htokoh
    apply List.ne_nil_of_length_pos
    rw [M.encoder.run_length,
      tokOneHots_length _ _ _ (batchMaxLen_ge slice tok htok)]
    exact hLpos
  simp only [poolChunk]
  rw [except_bind_ok _ hctt]
  simp only []
  rw [maxOverTime_ok _ houts_ne]
  show (Except.ok _ >>= _) = _
  rw [except_bind_ok _ rfl]
  have hpooled : ((slice.flatten.map
      (tokOneHots M.chars (batchMaxLen slice))).map M.encoder.run).map seqMax =
      slice.flatten.map (poolSel M (batchMaxLen slice)) := by
    rw [List.map_map, List.map_map]
    rfl
  rw [hpooled]
  apply view3_ok _ _ _ _ hE
  · rw [List.length_map, flatten_length_rect slice (width slice) hrect]
  · intro v hv
    rcases List.mem_map.mp hv with ⟨tok, htok, htv⟩
    subst htv
    exact poolSel_dim M _ tok (batchMaxLen_ge slice tok htok) hLpos hdim

theorem flatten_flatten_of_forall₂ {α : Type} {p : List (List α) → T3 → Prop}
    {g : List (List α) → List Vec} {l₁ : List (List (List α))} {l₂ : List T3}
    (hp : ∀ a b, p a b → b.flatten = g a) (h : List.Forall₂ p l₁ l₂) :
    l₂.flatten.flatten = (l₁.map g).flatten := by
  induction h with
  | nil => rfl
  | cons hab _ ih =>
    simp only [List.flatten_cons, List.map_cons, List.flatten_append]
    rw [ih, hp _ _ hab]

/-- Full characterization of `PoolGRUWord2Vec.lookup_tokens` on a
well-formed non-empty batch: it succeeds, has shape
`B x W x embedding_size`, and in flattened order the embeddings are, per
slice, the elementwise maxima over ALL padded time positions of the GRU
outputs of each token of the slice. -/
theorem poolLookupTokens_ok (M : GRUWord2Vec) (tokens : List (List Token))
    (hB : tokens ≠ [])
    (hrect : ∀ row ∈ tokens, row.length = width tokens)
    (hW : 0 < width tokens)
    (hne : ∀ tok ∈ tokens.flatten, tok ≠ [])
    (hch : CharsOK M.chars tokens)
    (hdim : M.encoder.outDim = M.embeddingSize)
    (hE : 0 < M.embeddingSize) :
    ∃ r, poolLookupTokens M tokens = .ok r ∧ r.length = tokens.length ∧
      (∀ row ∈ r, row.length = width tokens) ∧
      (∀ row ∈ r, ∀ v ∈ row, v.length = M.embeddingSize) ∧
      r.flatten = ((chunkList step tokens).map
        (fun c => c.flatten.map (poolSel M (batchMaxLen c)))).flatten := by
  have hmapM := mapM_ok_of_forall (poolChunk M)
    (fun c rc => rc.length = c.length ∧ (∀ row ∈ rc, row.length = width tokens) ∧
      (∀ row ∈ rc, ∀ v ∈ row, v.length = M.embeddingSize) ∧
      rc.flatten = c.flatten.map (poolSel M (batchMaxLen c)))
    (chunkList step tokens) ?hall
  case hall =>
    intro c hc
    rcases chunk_facts tokens c step hc hrect with ⟨hcne, hwc, hrc, hsub⟩
    have hWc : 0 < width c := by rw [hwc]; exact hW
    have hnec : ∀ tok ∈ c.flatten, tok ≠ [] := fun tok htok => hne tok (hsub tok htok)
    have hchc : CharsOK M.chars c := fun tok htok => hch tok (hsub tok htok)
    have hflatne : c.flatten ≠ [] := flatten_ne_nil c hcne hrc hWc
    rcases List.exists_cons_of_ne_nil hflatne with ⟨tk, rest, hfl⟩
    have hLpos : 0 < batchMaxLen c :=
      batchMaxLen_pos c tk (by rw [hfl]; simp) (hnec tk (by rw [hfl]; simp))
    have hflen : c.flatten.length = c.length * width c := flatten_length_rect c _ hrc
    have hmaplen : (c.flatten.map (poolSel M (batchMaxLen c))).length =
        c.length * width c := by
      rw [List.length_map]; exact hflen
    rcases chunkList_struct (width c) c.length _ hWc hmaplen with ⟨hs1, hs2, hs3⟩
    refine ⟨chunkList (width c) (c.flatten.map (poolSel M (batchMaxLen c))),
      poolChunk_ok M c hcne hrc hWc hnec hchc hdim hE, hs1, ?_, ?_, hs3⟩
    · intro row hrow
      rw [← hwc]
      exact hs2 row hrow
    · intro row hrow v hv
      have hvflat : v ∈ c.flatten.map (poolSel M (batchMaxLen c)) := by
        rw [← hs3]
        exact List.mem_flatten.mpr ⟨row, hrow, hv⟩
      rcases List.mem_map.mp hvflat with ⟨tok, htok, hvt⟩
      rw [← hvt]
      exact poolSel_dim M _ tok (batchMaxLen_ge c tok htok) hLpos hdim
  rcases hmapM with ⟨outs, houts, hfa⟩
  have hchne : chunkList step tokens ≠ [] := chunkList_ne_nil hB
  have houtsne : outs ≠ [] := by
    intro h
    have hlen := List.Forall₂.length_eq hfa
    rw [h] at hlen
    simp only [List.length_nil] at hlen
    exact hchne (List.length_eq_zero.mp hlen)
  rcases List.exists_cons_of_ne_nil houtsne with ⟨o0, orest, ho⟩
  refine ⟨outs.flatten, ?_, ?_, ?_, ?_, ?_⟩
  · rw [poolLookupTokens, except_bind_ok _ houts, ho]
  · have h1 := flatten_length_of_forall₂ (fun a b h => h.1) hfa
    rw [h1, chunkList_flatten]
  · intro row hrow
    rcases List.mem_flatten.mp hrow with ⟨rc, hrc, hrr⟩
    rcases forall₂_mem_right hfa rc hrc with ⟨c, _, hp⟩
    exact hp.2.1 row hrr
  · intro row hrow v hv
    rcases List.mem_flatten.mp hrow with ⟨rc, hrc, hrr⟩
    rcases forall₂_mem_right hfa rc hrc with ⟨c, _, hp⟩
    exact hp.2.2.1 row hrr v hv
  · exact flatten_flatten_of_forall₂ (fun a b h => h.2.2.2) hfa

/-! ### `CNNWord2Vec.lookup_tokens` characterization -/

theorem zipWith_getD {α β γ : Type} (f : α → β → γ) (as : List α)
    (bs : List β) (i : ℕ) (ha : i < as.length) (hb : i < bs.length)
    (d : γ) (da : α) (db : β) :
    (List.zipWith f as bs).getD i d = f (as.getD i da) (bs.getD i db) := by
  have hz : i < (List.zipWith f as bs).length := by
    rw [List.length_zipWith]
    exact lt_min ha hb
  rw [List.getD_eq_getElem _ _ hz, List.getD_eq_getElem _ _ ha,
    List.getD_eq_getElem _ _ hb, List.getElem_zipWith]

theorem foldl_vecMax_getD (l : List Vec) (acc : Vec) (E e : ℕ)
    (he : e < E) (hacc : acc.length = E) (h : ∀ v ∈ l, v.length = E) :
    (l.foldl vecMax acc).getD e 0 =
      l.foldl (fun a v => max a (v.getD e 0)) (acc.getD e 0) := by
  induction l generalizing acc with
  | nil => rfl
  | cons v vs ih =>
    have hstep : (vecMax acc v).getD e 0 = max (acc.getD e 0) (v.getD e 0) := by
      rw [vecMax, zipWith_getD max acc v e (by omega) (by rw [h v (by simp)]; omega) 0 0 0]
    rw [List.foldl_cons, List.foldl_cons,
      ih (vecMax acc v) (vecMax_length acc v E hacc (h v (by simp)))
        (fun w hw => h w (by simp [hw])), hstep]

theorem seqMax_getD (vs : List Vec) (E e : ℕ) (he : e < E) (hne : vs ≠ [])
    (h : ∀ v ∈ vs, v.length = E) :
    (seqMax vs).getD e 0 = pyMaxQ (vs.map (fun v => v.getD e 0)) := by
  cases vs with
  | nil => exact absurd rfl hne
  | cons v rest =>
    rw [seqMax, List.map_cons, pyMaxQ]
    show _ = (rest.map (fun v => v.getD e 0)).foldl max (v.getD e 0)
    rw [foldl_vecMax_getD rest v E e he (h v (by simp))
      (fun w hw => h w (by simp [hw])), List.foldl_map]

theorem conv1dSeq_ok (weight : List (List Vec)) (bias : Vec) (K : ℕ)
    (xs : List Vec) (h : K ≤ xs.length) :
    conv1dSeq weight bias K xs = .ok (convOuts weight bias K xs) := by
  rw [conv1dSeq, if_neg (by omega)]

theorem conv1dSeq_err (weight : List (List Vec)) (bias : Vec) (K : ℕ)
    (xs : List Vec) (h : xs.length < K) :
    conv1dSeq weight bias K xs = .error .conv := by
  rw [conv1dSeq, if_pos h]

theorem convOuts_length (weight : List (List Vec)) (bias : Vec) (K : ℕ)
    (xs : List Vec) : (convOuts weight bias K xs).length = xs.length - K + 1 := by
  rw [convOuts, List.length_map, List.length_range]

theorem convOuts_dim (M : CNNWord2Vec) (xs : List Vec) :
    ∀ v ∈ convOuts M.weight M.bias M.kernelSize xs,
      v.length = M.embeddingSize := by
  intro v hv
  rcases List.mem_map.mp hv with ⟨t, _, htv⟩
  subst htv
  rw [List.length_zipWith, M.weight_len, M.bias_len, min_self]

theorem convVals_getD (M : CNNWord2Vec) (L : ℕ) (tok : Token) (e : ℕ)
    (he : e < M.embeddingSize) :
    (convVals M L tok).map (fun v => v.getD e 0) =
      (List.range ((tokOneHots M.chars L tok).length - M.kernelSize + 1)).map
        (fun t => convAt (M.weight.getD e []) (M.bias.getD e 0) M.kernelSize
          (tokOneHots M.chars L tok) t) := by
  rw [convVals, convOuts, List.map_map]
  apply List.map_congr_left
  intro t _
  show (List.zipWith _ M.weight M.bias).getD e 0 = _
  rw [zipWith_getD _ M.weight M.bias e (by rw [M.weight_len]; omega)
    (by rw [M.bias_len]; omega) 0 [] 0]

/-- Full characterization of `CNNWord2Vec.lookup_tokens` on a
well-formed non-empty batch whose longest token has at least
`kernel_size` characters: it succeeds, has shape
`B x W x embedding_size`, and in flattened order the embeddings are the
elementwise maxima over the output positions of the convolution along
each token's padded one-hot character sequence. -/
theorem cnnLookupTokens_ok (M : CNNWord2Vec) (tokens : List (List Token))
    (hB : tokens ≠ [])
    (hrect : ∀ row ∈ tokens, row.length = width tokens)
    (hW : 0 < width tokens)
    (hch : CharsOK M.chars tokens)
    (hE : 0 < M.embeddingSize)
    (hk : M.kernelSize ≤ batchMaxLen tokens) :
    ∃ r, cnnLookupTokens M tokens = .ok r ∧ r.length = tokens.length ∧
      (∀ row ∈ r, row.length = width tokens) ∧
      (∀ row ∈ r, ∀ v ∈ row, v.length = M.embeddingSize) ∧
      r.flatten = tokens.flatten.map
        (fun tok => seqMax (convVals M (batchMaxLen tokens) tok)) := by
  have hflatne : tokens.flatten ≠ [] := flatten_ne_nil tokens hB hrect hW
  have hctt := chartoken2tensor_ok M.chars tokens hrect hflatne hch
  have hohlen : ∀ tok ∈ tokens.flatten,
      (tokOneHots M.chars (batchMaxLen tokens) tok).length = batchMaxLen tokens :=
    fun tok htok => tokOneHots_length _ _ _ (batchMaxLen_ge tokens tok htok)
  have hconv : (tokens.flatten.map (tokOneHots M.chars (batchMaxLen tokens))).mapM
      (conv1dSeq M.weight M.bias M.kernelSize) =
      .ok ((tokens.flatten.map (tokOneHots M.chars (batchMaxLen tokens))).map
        (convOuts M.weight M.bias M.kernelSize)) := by
    apply mapM_eq_map_of_forall_ok
    intro xs hxs
    rcases List.mem_map.mp hxs with ⟨tok, htok, htx⟩
    subst htx
    exact conv1dSeq_ok _ _ _ _ (by rw [hohlen tok htok]; exact hk)
  have houts_ne : ∀ s ∈ (tokens.flatten.map
      (tokOneHots M.chars (batchMaxLen tokens))).map
        (convOuts M.weight M.bias M.kernelSize), s ≠ [] := by
    intro s hs
    rcases List.mem_map.mp hs with ⟨xs, hxs, hxss⟩
    subst hxss
    apply List.ne_nil_of_length_pos
    rw [convOuts_length]
    omega
  have hpooled : ((tokens.flatten.map (tokOneHots M.chars
      (batchMaxLen tokens))).map (convOuts M.weight M.bias M.kernelSize)).map
        seqMax = tokens.flatten.map
          (fun tok => seqMax (convVals M (batchMaxLen tokens) tok)) := by
    rw [List.map_map, List.map_map]
    rfl
  have hflen : tokens.flatten.length = tokens.length * width tokens :=
    flatten_length_rect tokens _ hrect
  have hmaplen : (tokens.flatten.map (fun tok =>
      seqMax (convVals M (batchMaxLen tokens) tok))).length =
      tokens.length * width tokens := by
    rw [List.length_map]; exact hflen
  have hdims : ∀ v ∈ tokens.flatten.map (fun tok =>
      seqMax (convVals M (batchMaxLen tokens) tok)), v.length = M.embeddingSize := by
    intro v hv
    rcases List.mem_map.mp hv with ⟨tok, htok, htv⟩
    subst htv
    apply seqMax_length _ M.embeddingSize
    · apply List.ne_nil_of_length_pos
      rw [convVals, convOuts_length, hohlen tok htok]
      omega
    · intro w hw
      exact convOuts_dim M _ w hw
  rcases chunkList_struct (width tokens) tokens.length _ hW hmaplen
    with ⟨hs1, hs2, hs3⟩
  refine ⟨chunkList (width tokens) (tokens.flatten.map (fun tok =>
    seqMax (convVals M (batchMaxLen tokens) tok))), ?_, hs1, hs2, ?_, hs3⟩
  · simp only [cnnLookupTokens]
    rw [except_bind_ok _ hctt]
    simp only []
    rw [except_bind_ok _ hconv, except_bind_ok _ (maxOverTime_ok _ houts_ne),
      hpooled]
    exact view3_ok _ _ _ _ hE hmaplen hdims
  · intro row hrow v hv
    apply hdims
    rw [← hs3]
    exact List.mem_flatten.mpr ⟨row, hrow, hv⟩

/-- `CNNWord2Vec.lookup_tokens` raises the convolution size error
whenever the longest token of a well-formed non-empty batch is shorter
than `kernel_size`. -/
theorem cnnLookupTokens_err (M : CNNWord2Vec) (tokens : List (List Token))
    (hB : tokens ≠ [])
    (hrect : ∀ row ∈ tokens, row.length = width tokens)
    (hW : 0 < width tokens)
    (hch : CharsOK M.chars tokens)
    (hk : batchMaxLen tokens < M.kernelSize) :
    cnnLookupTokens M tokens = .error .conv := by
  have hflatne : tokens.flatten ≠ [] := flatten_ne_nil tokens hB hrect hW
  have hctt := chartoken2tensor_ok M.chars tokens hrect hflatne hch
  rcases List.exists_cons_of_ne_nil hflatne with ⟨tk, rest, hfl⟩
  simp only [cnnLookupTokens]
  rw [except_bind_ok _ hctt]
  simp only []
  rw [hfl, List.map_cons, mapM_error_head _ _ _ _ ?hhd]
  case hhd =>
    apply conv1dSeq_err
    rw [tokOneHots_length _ _ _ (batchMaxLen_ge tokens tk (by rw [hfl]; simp))]
    exact hk
  rfl

/-! ### Claim theorems -/

/-- C8: the character encoder built by `CharWord2Vec.__init__` is a
frozen identity one-hot encoding — for every character id `i < num_chars`
its row is the `i`-th standard basis vector of dimension `num_chars`
(length `num_chars`, entry `1` at `i` and `0` elsewhere), the padding
row (index `num_chars`) is the zero vector, and the weights have
`requires_grad = False`; the lookup operations are pure functions of the
fixed `charEncoderWeight`, so no operation changes the encoding. -/
theorem claim_C8_frozen_onehot_encoder (n i j : ℕ) (hi : i < n) (hj : j < n) :
    ((mkCharEncoder n).weight.getD i []).length = n ∧
    ((mkCharEncoder n).weight.getD i []).getD j 0 =
      (if j = i then (1 : ℚ) else 0) ∧
    (mkCharEncoder n).weight.getD n [] = List.replicate n 0 ∧
    (mkCharEncoder n).requiresGrad = false := by
  have h1 : (mkCharEncoder n).weight.getD i [] = oneHot n i :=
    encRow_eq n i (by omega)
  refine ⟨?_, ?_, ?_, rfl⟩
  · rw [h1, oneHot_length]
  · rw [h1]
    exact oneHot_getD n i j hj
  · show encRow n n = _
    exact encRow_pad n

theorem claim_C8_frozen_onehot_encoder_witness :
    (1 < 2 ∧ 0 < 2) ∧
    (((mkCharEncoder 2).weight.getD 1 []).length = 2 ∧
      ((mkCharEncoder 2).weight.getD 1 []).getD 0 0 =
        (if (0 : ℕ) = 1 then (1 : ℚ) else 0) ∧
      (mkCharEncoder 2).weight.getD 2 [] = List.replicate 2 0 ∧
      (mkCharEncoder 2).requiresGrad = false) :=
  ⟨by decide, claim_C8_frozen_onehot_encoder 2 1 0 (by decide) (by decide)⟩

/-- C6: on a 2-D batch whose characters are all keys of `char2id`,
`chartoken2tensor` pads every token's id sequence with the padding id
`num_chars` up to the longest token and one-hot encodes: every token's
tensor has the padded length, its first `len(token)` positions are
exactly the one-hot rows of its characters in order, and every padded
position is the all-zero vector. -/
theorem claim_C6_padded_onehot_batch (M : CharW2V) (tokens : List (List Token))
    (hrect : ∀ row ∈ tokens, row.length = width tokens)
    (hne : tokens.flatten ≠ [])
    (hch : CharsOK M tokens) :
    chartoken2tensor M tokens =
      .ok (tokens.flatten.map (tokOneHots M (batchMaxLen tokens)),
        tokens.flatten.map List.length) ∧
    ∀ tok ∈ tokens.flatten,
      (tokOneHots M (batchMaxLen tokens) tok).length = batchMaxLen tokens ∧
      tokOneHots M (batchMaxLen tokens) tok =
        tok.map (fun ch => oneHot M.numChars ((M.char2id ch).getD 0)) ++
          List.replicate (batchMaxLen tokens - tok.length)
            (List.replicate M.numChars 0) := by
  refine ⟨chartoken2tensor_ok M tokens hrect hne hch, ?_⟩
  intro tok htok
  constructor
  · exact tokOneHots_length M _ tok (batchMaxLen_ge tokens tok htok)
  · rw [tokOneHots, paddedIds, List.map_append]
    congr 1
    · rw [tokIds, List.map_map]
      apply List.map_congr_left
      intro ch hc
      show encRow M.numChars ((M.char2id ch).getD 0) = _
      exact encRow_eq _ _ (by have := (hch tok htok ch hc).2; omega)
    · rw [List.map_replicate, encRow_pad]

theorem claim_C6_padded_onehot_batch_witness :
    ((∀ row ∈ [[['a', 'b'], ['a']]], List.length row =
        width [[['a', 'b'], ['a']]]) ∧
      [[['a', 'b'], ['a']]].flatten ≠ [] ∧
      CharsOK charsAB [[['a', 'b'], ['a']]]) ∧
    (chartoken2tensor charsAB [[['a', 'b'], ['a']]] =
      .ok ([[['a', 'b'], ['a']]].flatten.map
          (tokOneHots charsAB (batchMaxLen [[['a', 'b'], ['a']]])),
        [[['a', 'b'], ['a']]].flatten.map List.length) ∧
      ∀ tok ∈ [[['a', 'b'], ['a']]].flatten,
        (tokOneHots charsAB (batchMaxLen [[['a', 'b'], ['a']]]) tok).length =
          batchMaxLen [[['a', 'b'], ['a']]] ∧
        tokOneHots charsAB (batchMaxLen [[['a', 'b'], ['a']]]) tok =
          tok.map (fun ch => oneHot charsAB.numChars
            ((charsAB.char2id ch).getD 0)) ++
            List.replicate (batchMaxLen [[['a', 'b'], ['a']]] - tok.length)
              (List.replicate charsAB.numChars 0)) :=
  ⟨⟨by decide, by decide, by decide⟩,
    claim_C6_padded_onehot_batch charsAB [[['a', 'b'], ['a']]]
      (by decide) (by decide) (by decide)⟩

/-- C10: on a 2-D token array with all characters present in `char2id`,
`chartoken2tensor`'s assertions succeed and the returned one-hot tensor's
first dimension is `tokens.shape[0] * tokens.shape[1]` whenever the array
has at least one element; on an empty 2-D array it instead fails at
`max(seq_lens)`. -/
theorem claim_C10_assertions_and_empty (M : CharW2V) (tokens : List (List Token))
    (hrect : ∀ row ∈ tokens, row.length = width tokens)
    (hch : CharsOK M tokens) :
    (tokens.flatten ≠ [] → ∃ onehots seqLens,
      chartoken2tensor M tokens = .ok (onehots, seqLens) ∧
      onehots.length = tokens.length * width tokens) ∧
    (tokens.flatten = [] → chartoken2tensor M tokens = .error .emptyMax) := by
  constructor
  · intro hne
    refine ⟨_, _, chartoken2tensor_ok M tokens hrect hne hch, ?_⟩
    rw [List.length_map, flatten_length_rect tokens _ hrect]
  · intro hflat
    exact chartoken2tensor_empty M tokens hrect hflat

theorem claim_C10_assertions_and_empty_witness :
    ((∀ row ∈ [[['a'], ['b']]], List.length row = width [[['a'], ['b']]]) ∧
      CharsOK charsAB [[['a'], ['b']]]) ∧
    (([[['a'], ['b']]].flatten ≠ [] → ∃ onehots seqLens,
      chartoken2tensor charsAB [[['a'], ['b']]] = .ok (onehots, seqLens) ∧
      onehots.length = [[['a'], ['b']]].length * width [[['a'], ['b']]]) ∧
    ([[['a'], ['b']]].flatten = [] →
      chartoken2tensor charsAB [[['a'], ['b']]] = .error .emptyMax)) :=
  ⟨⟨by decide, by decide⟩,
    claim_C10_assertions_and_empty charsAB [[['a'], ['b']]]
      (by decide) (by decide)⟩

/-- C7: for every model and every single token, `lookup(token)` is
`lookup_tokens` applied to the `1 x 1` array containing that token, so a
single lookup yields exactly the embedding the token receives inside the
batch lookup of its singleton batch. -/
theorem claim_C7_lookup_is_singleton_batch (Mg : GRUWord2Vec)
    (Mc : CNNWord2Vec) (token : Token) :
    Mg.lookup token = gruLookupTokens Mg [[token]] ∧
    poolLookup Mg token = poolLookupTokens Mg [[token]] ∧
    Mc.lookup token = cnnLookupTokens Mc [[token]] :=
  ⟨rfl, rfl, rfl⟩

theorem unidir_outDim (M : GRUWord2Vec) (hbid : M.bidirectional = false) :
    M.encoder.outDim = M.embeddingSize := by
  have h := M.fwd_dim
  rw [hbid] at h
  simp only [Bool.false_eq_true, if_false] at h
  rw [GRUWord2Vec.encoder, hbid]
  simpa using h

theorem bidir_encoder (M : GRUWord2Vec) (hbid : M.bidirectional = true) :
    M.encoder = biEncoder M.fwd M.bwd := by
  rw [GRUWord2Vec.encoder, hbid]
  simp

theorem bidir_outDim (M : GRUWord2Vec) (hbid : M.bidirectional = true)
    (heven : M.embeddingSize % 2 = 0) :
    M.encoder.outDim = M.embeddingSize := by
  rw [bidir_encoder M hbid]
  show M.fwd.outDim + M.bwd.outDim = _
  have h := M.fwd_dim
  rw [hbid] at h
  simp only [if_true] at h
  rw [h, M.bwd_dim hbid]
  omega

/-- C4: on a non-degenerate `B x W` batch of non-empty tokens whose
characters are all keys of `char2id`, `GRUWord2Vec.lookup_tokens` with
`bidirectional=False` returns a `B x W x embedding_size` tensor: every
token receives an embedding vector of the fixed size `embedding_size`. -/
theorem claim_C4_unidirectional_shape (M : GRUWord2Vec)
    (tokens : List (List Token))
    (hbid : M.bidirectional = false)
    (hB : tokens ≠ [])
    (hrect : ∀ row ∈ tokens, row.length = width tokens)
    (hW : 0 < width tokens)
    (hne : ∀ tok ∈ tokens.flatten, tok ≠ [])
    (hch : CharsOK M.chars tokens)
    (hE : 0 < M.embeddingSize) :
    ∃ r, gruLookupTokens M tokens = .ok r ∧ r.length = tokens.length ∧
      ∀ row ∈ r, row.length = width tokens ∧
        ∀ v ∈ row, v.length = M.embeddingSize := by
  rcases gruLookupTokens_ok M tokens hB hrect hW hne hch
    (unidir_outDim M hbid) hE with ⟨r, h1, h2, h3, h4⟩
  refine ⟨r, h1, h2, ?_⟩
  intro row hrow
  refine ⟨h3 row hrow, ?_⟩
  intro v hv
  rcases h4 row hrow v hv with ⟨c, _, tok, _, _, _, hlen⟩
  exact hlen

theorem claim_C4_unidirectional_shape_witness :
    (MgPos.bidirectional = false ∧ ([[['a', 'b'], ['a']]] : List (List Token)) ≠ [] ∧
      (∀ row ∈ [[['a', 'b'], ['a']]], List.length row = width [[['a', 'b'], ['a']]]) ∧
      0 < width ([[['a', 'b'], ['a']]] : List (List Token)) ∧
      (∀ tok ∈ ([[['a', 'b'], ['a']]] : List (List Token)).flatten, tok ≠ []) ∧
      CharsOK MgPos.chars [[['a', 'b'], ['a']]] ∧
      0 < MgPos.embeddingSize) ∧
    (∃ r, gruLookupTokens MgPos [[['a', 'b'], ['a']]] = .ok r ∧
      r.length = ([[['a', 'b'], ['a']]] : List (List Token)).length ∧
      ∀ row ∈ r, row.length = width ([[['a', 'b'], ['a']]] : List (List Token)) ∧
        ∀ v ∈ row, v.length = MgPos.embeddingSize) :=
  ⟨⟨rfl, by decide, by decide, by decide, by decide, by decide, by decide⟩,
    claim_C4_unidirectional_shape MgPos [[['a', 'b'], ['a']]] rfl
      (by decide) (by decide) (by decide) (by decide) (by decide) (by decide)⟩

/-- C2 counterexample: with the odd `embedding_size = 3` and
`bidirectional=True`, the GRU output dimension is `2 * (3 // 2) = 2`, so
the `.view(B, W, 3)` fails with a runtime error instead of producing
embeddings of size 3 — the claim fails for odd `embedding_size`. -/
theorem claim_C2_counterexample :
    MgBi3.bidirectional = true ∧ MgBi3.embeddingSize = 3 ∧
    gruLookupTokens MgBi3 [[['a']]] = .error .view :=
  ⟨rfl, rfl, rfl⟩

/-- C2 (amended): for every EVEN `embedding_size` and every
non-degenerate batch of non-empty tokens with characters in `char2id`,
the bidirectional `GRUWord2Vec` maps each token to an embedding vector
of size `embedding_size`, the concatenation of two directional GRU
output vectors each of size `embedding_size // 2`. -/
theorem claim_C2_bidirectional_even_concat (M : GRUWord2Vec)
    (tokens : List (List Token))
    (hbid : M.bidirectional = true)
    (heven : M.embeddingSize % 2 = 0)
    (hB : tokens ≠ [])
    (hrect : ∀ row ∈ tokens, row.length = width tokens)
    (hW : 0 < width tokens)
    (hne : ∀ tok ∈ tokens.flatten, tok ≠ [])
    (hch : CharsOK M.chars tokens)
    (hE : 0 < M.embeddingSize) :
    ∃ r, gruLookupTokens M tokens = .ok r ∧ r.length = tokens.length ∧
      ∀ row ∈ r, row.length = width tokens ∧
        ∀ v ∈ row, v.length = M.embeddingSize ∧
          ∃ u w, v = u ++ w ∧ u.length = M.embeddingSize / 2 ∧
            w.length = M.embeddingSize / 2 := by
  rcases gruLookupTokens_ok M tokens hB hrect hW hne hch
    (bidir_outDim M hbid heven) hE with ⟨r, h1, h2, h3, h4⟩
  refine ⟨r, h1, h2, ?_⟩
  intro row hrow
  refine ⟨h3 row hrow, ?_⟩
  intro v hv
  rcases h4 row hrow v hv with ⟨c, _, tok, _, _, hmem, hlen⟩
  refine ⟨hlen, ?_⟩
  rw [bidir_encoder M hbid] at hmem
  rcases biRun_decomp M.fwd M.bwd _ v hmem with ⟨u, w, hvw, hu, hw⟩
  have hfd := M.fwd_dim
  rw [hbid] at hfd
  simp only [if_true] at hfd
  exact ⟨u, w, hvw, by rw [hu, hfd], by rw [hw, M.bwd_dim hbid]⟩

theorem claim_C2_bidirectional_even_concat_witness :
    (MgBi2.bidirectional = true ∧ MgBi2.embeddingSize % 2 = 0 ∧
      ([[['a', 'b'], ['a']]] : List (List Token)) ≠ [] ∧
      (∀ row ∈ [[['a', 'b'], ['a']]], List.length row = width [[['a', 'b'], ['a']]]) ∧
      0 < width ([[['a', 'b'], ['a']]] : List (List Token)) ∧
      (∀ tok ∈ ([[['a', 'b'], ['a']]] : List (List Token)).flatten, tok ≠ []) ∧
      CharsOK MgBi2.chars [[['a', 'b'], ['a']]] ∧
      0 < MgBi2.embeddingSize) ∧
    (∃ r, gruLookupTokens MgBi2 [[['a', 'b'], ['a']]] = .ok r ∧
      r.length = ([[['a', 'b'], ['a']]] : List (List Token)).length ∧
      ∀ row ∈ r, row.length = width ([[['a', 'b'], ['a']]] : List (List Token)) ∧
        ∀ v ∈ row, v.length = MgBi2.embeddingSize ∧
          ∃ u w, v = u ++ w ∧ u.length = MgBi2.embeddingSize / 2 ∧
            w.length = MgBi2.embeddingSize / 2) :=
  ⟨⟨rfl, rfl, by decide, by decide, by decide, by decide, by decide, by decide⟩,
    claim_C2_bidirectional_even_concat MgBi2 [[['a', 'b'], ['a']]] rfl rfl
      (by decide) (by decide) (by decide) (by decide) (by decide) (by decide)⟩

/-- C1 (the code bug): on the batch `[["ab", "a"]]`, with an encoder
whose output at time `t` is `[t]`, `GRUWord2Vec.lookup_tokens` assigns
BOTH tokens the output at time index 0 — the index determined by the
LAST token's `seq_len` (`len("a") - 1 = 0`), because every iteration of
the `for seq_len in seq_lens` loop rebinds `new_outputs` wholesale —
whereas the output at the token `"ab"`'s own final character position
`len("ab") - 1 = 1` is `[1]`. -/
theorem claim_C1_last_token_selection_bug :
    gruLookupTokens MgPos [[['a', 'b'], ['a']]] = .ok [[[0], [0]]] ∧
    gruSel MgPos 2 1 ['a', 'b'] = [0] ∧
    (MgPos.encoder.run (tokOneHots MgPos.chars 2 ['a', 'b'])).getD
      ((['a', 'b'] : Token).length - 1) [] = [1] ∧
    ([(0 : ℚ)] : Vec) ≠ [1] :=
  ⟨rfl, rfl, rfl, by decide⟩

/-- C3 counterexample: with position-distinguishing directional
encoders, `PoolGRUWord2Vec.lookup_tokens` on the batch `[["ab", "a"]]`
returns `[1, 1]` for the token `"a"`, although the elementwise maximum
over `"a"`'s own single time step is `[0, 1]`: the pooling includes the
padding position beyond the token's length. -/
theorem claim_C3_counterexample :
    poolLookupTokens MgBi2 [[['a', 'b'], ['a']]] = .ok [[[1, 1], [1, 1]]] ∧
    seqMax ((MgBi2.encoder.run (tokOneHots MgBi2.chars 2 ['a'])).take
      (['a'] : Token).length) = [0, 1] ∧
    ([(1 : ℚ), 1] : Vec) ≠ [0, 1] :=
  ⟨rfl, rfl, by decide⟩

/-- C3 (amended): on a non-degenerate batch of non-empty tokens,
`PoolGRUWord2Vec.lookup_tokens` (bidirectional, even `embedding_size`)
returns, for each token, the elementwise maximum of the GRU encoder
outputs over ALL time steps of the token's sequence as padded to its
slice's longest token — padding positions included. -/
theorem claim_C3_pool_over_padded_positions (M : GRUWord2Vec)
    (tokens : List (List Token))
    (hbid : M.bidirectional = true)
    (heven : M.embeddingSize % 2 = 0)
    (hB : tokens ≠ [])
    (hrect : ∀ row ∈ tokens, row.length = width tokens)
    (hW : 0 < width tokens)
    (hne : ∀ tok ∈ tokens.flatten, tok ≠ [])
    (hch : CharsOK M.chars tokens)
    (hE : 0 < M.embeddingSize) :
    ∃ r, poolLookupTokens M tokens = .ok r ∧ r.length = tokens.length ∧
      (∀ row ∈ r, row.length = width tokens) ∧
      (∀ row ∈ r, ∀ v ∈ row, v.length = M.embeddingSize) ∧
      r.flatten = ((chunkList step tokens).map
        (fun c => c.flatten.map (poolSel M (batchMaxLen c)))).flatten :=
  poolLookupTokens_ok M tokens hB hrect hW hne hch
    (bidir_outDim M hbid heven) hE

theorem claim_C3_pool_over_padded_positions_witness :
    (MgBi2.bidirectional = true ∧ MgBi2.embeddingSize % 2 = 0 ∧
      ([[['a', 'b'], ['a']]] : List (List Token)) ≠ [] ∧
      (∀ row ∈ [[['a', 'b'], ['a']]], List.length row = width [[['a', 'b'], ['a']]]) ∧
      0 < width ([[['a', 'b'], ['a']]] : List (List Token)) ∧
      (∀ tok ∈ ([[['a', 'b'], ['a']]] : List (List Token)).flatten, tok ≠ []) ∧
      CharsOK MgBi2.chars [[['a', 'b'], ['a']]] ∧
      0 < MgBi2.embeddingSize) ∧
    (∃ r, poolLookupTokens MgBi2 [[['a', 'b'], ['a']]] = .ok r ∧
      r.length = ([[['a', 'b'], ['a']]] : List (List Token)).length ∧
      (∀ row ∈ r, row.length = width ([[['a', 'b'], ['a']]] : List (List Token))) ∧
      (∀ row ∈ r, ∀ v ∈ row, v.length = MgBi2.embeddingSize) ∧
      r.flatten = ((chunkList step [[['a', 'b'], ['a']]]).map
        (fun c => c.flatten.map (poolSel MgBi2 (batchMaxLen c)))).flatten) :=
  ⟨⟨rfl, rfl, by decide, by decide, by decide, by decide, by decide, by decide⟩,
    claim_C3_pool_over_padded_positions MgBi2 [[['a', 'b'], ['a']]] rfl rfl
      (by decide) (by decide) (by decide) (by decide) (by decide) (by decide)⟩

/-- C5: on a non-degenerate batch whose tokens all have at least
`kernel_size` characters (and characters in `char2id`),
`CNNWord2Vec.lookup_tokens` returns, for each token, an embedding vector
of size `embedding_size` whose entry for output channel `e` is the
maximum over the output positions of the un-padded 1-D convolution of
filter `e` (over the character one-hot channels) along the token's
padded character sequence. -/
theorem claim_C5_cnn_conv_maxpool (M : CNNWord2Vec)
    (tokens : List (List Token))
    (hB : tokens ≠ [])
    (hrect : ∀ row ∈ tokens, row.length = width tokens)
    (hW : 0 < width tokens)
    (hch : CharsOK M.chars tokens)
    (hE : 0 < M.embeddingSize)
    (hk : ∀ tok ∈ tokens.flatten, M.kernelSize ≤ tok.length) :
    ∃ r, cnnLookupTokens M tokens = .ok r ∧ r.length = tokens.length ∧
      (∀ row ∈ r, row.length = width tokens) ∧
      (∀ row ∈ r, ∀ v ∈ row, v.length = M.embeddingSize) ∧
      r.flatten = tokens.flatten.map
        (fun tok => seqMax (convVals M (batchMaxLen tokens) tok)) ∧
      ∀ tok ∈ tokens.flatten, ∀ e < M.embeddingSize,
        (seqMax (convVals M (batchMaxLen tokens) tok)).getD e 0 =
          pyMaxQ ((List.range ((tokOneHots M.chars (batchMaxLen tokens)
              tok).length - M.kernelSize + 1)).map
            (fun t => convAt (M.weight.getD e []) (M.bias.getD e 0)
              M.kernelSize (tokOneHots M.chars (batchMaxLen tokens) tok) t)) := by
  have hflatne : tokens.flatten ≠ [] := flatten_ne_nil tokens hB hrect hW
  rcases List.exists_cons_of_ne_nil hflatne with ⟨tk, rest, hfl⟩
  have hkmax : M.kernelSize ≤ batchMaxLen tokens :=
    le_trans (hk tk (by rw [hfl]; simp))
      (batchMaxLen_ge tokens tk (by rw [hfl]; simp))
  rcases cnnLookupTokens_ok M tokens hB hrect hW hch hE hkmax
    with ⟨r, h1, h2, h3, h4, h5⟩
  refine ⟨r, h1, h2, h3, h4, h5, ?_⟩
  intro tok htok e he
  have hohlen : (tokOneHots M.chars (batchMaxLen tokens) tok).length =
      batchMaxLen tokens :=
    tokOneHots_length _ _ _ (batchMaxLen_ge tokens tok htok)
  have hcvne : convVals M (batchMaxLen tokens) tok ≠ [] := by
    apply List.ne_nil_of_length_pos
    rw [convVals, convOuts_length, hohlen]
    omega
  rw [seqMax_getD _ M.embeddingSize e he hcvne
    (fun v hv => convOuts_dim M _ v hv), convVals_getD M _ tok e he]

theorem claim_C5_cnn_conv_maxpool_witness :
    ((([[['a', 'a', 'b', 'a']]] : List (List Token)) ≠ []) ∧
      (∀ row ∈ [[['a', 'a', 'b', 'a']]],
        List.length row = width [[['a', 'a', 'b', 'a']]]) ∧
      0 < width ([[['a', 'a', 'b', 'a']]] : List (List Token)) ∧
      CharsOK Mcnn.chars [[['a', 'a', 'b', 'a']]] ∧
      0 < Mcnn.embeddingSize ∧
      (∀ tok ∈ ([[['a', 'a', 'b', 'a']]] : List (List Token)).flatten,
        Mcnn.kernelSize ≤ tok.length)) ∧
    (∃ r, cnnLookupTokens Mcnn [[['a', 'a', 'b', 'a']]] = .ok r ∧
      r.length = ([[['a', 'a', 'b', 'a']]] : List (List Token)).length ∧
      (∀ row ∈ r, row.length =
        width ([[['a', 'a', 'b', 'a']]] : List (List Token))) ∧
      (∀ row ∈ r, ∀ v ∈ row, v.length = Mcnn.embeddingSize) ∧
      r.flatten = ([[['a', 'a', 'b', 'a']]] : List (List Token)).flatten.map
        (fun tok => seqMax (convVals Mcnn
          (batchMaxLen [[['a', 'a', 'b', 'a']]]) tok)) ∧
      ∀ tok ∈ ([[['a', 'a', 'b', 'a']]] : List (List Token)).flatten,
        ∀ e < Mcnn.embeddingSize,
        (seqMax (convVals Mcnn (batchMaxLen [[['a', 'a', 'b', 'a']]])
            tok)).getD e 0 =
          pyMaxQ ((List.range ((tokOneHots Mcnn.chars
              (batchMaxLen [[['a', 'a', 'b', 'a']]]) tok).length -
                Mcnn.kernelSize + 1)).map
            (fun t => convAt (Mcnn.weight.getD e []) (Mcnn.bias.getD e 0)
              Mcnn.kernelSize (tokOneHots Mcnn.chars
                (batchMaxLen [[['a', 'a', 'b', 'a']]]) tok) t))) :=
  ⟨⟨by decide, by decide, by decide, by decide, by decide, by decide⟩,
    claim_C5_cnn_conv_maxpool Mcnn [[['a', 'a', 'b', 'a']]]
      (by decide) (by decide) (by decide) (by decide) (by decide) (by decide)⟩

/-- C9: `CNNWord2Vec.lookup_tokens` raises an error rather than
returning embeddings whenever the longest token of the (non-degenerate,
in-vocabulary) batch has fewer than `kernel_size` characters, because
the un-padded convolution's output length would not be positive;
`Mcnn` instantiates the default `kernel_size = 3`. -/
theorem claim_C9_cnn_short_token_error (M : CNNWord2Vec)
    (tokens : List (List Token))
    (hB : tokens ≠ [])
    (hrect : ∀ row ∈ tokens, row.length = width tokens)
    (hW : 0 < width tokens)
    (hch : CharsOK M.chars tokens)
    (hk : batchMaxLen tokens < M.kernelSize) :
    cnnLookupTokens M tokens = .error .conv :=
  cnnLookupTokens_err M tokens hB hrect hW hch hk

theorem claim_C9_cnn_short_token_error_witness :
    ((([[['a', 'b']]] : List (List Token)) ≠ []) ∧
      (∀ row ∈ [[['a', 'b']]], List.length row = width [[['a', 'b']]]) ∧
      0 < width ([[['a', 'b']]] : List (List Token)) ∧
      CharsOK Mcnn.chars [[['a', 'b']]] ∧
      batchMaxLen [[['a', 'b']]] < Mcnn.kernelSize) ∧
    cnnLookupTokens Mcnn [[['a', 'b']]] = .error .conv :=
  ⟨⟨by decide, by decide, by decide, by decide, by decide⟩,
    claim_C9_cnn_short_token_error Mcnn [[['a', 'b']]]
      (by decide) (by decide) (by decide) (by decide) (by decide)⟩
